import Mathlib

/-! Etymology extraction and the etymology graph.

A shallow embedding of `wiktparse/parse.go` (template parser, section locator,
reference deduplicator, text-section splitter) and of `ety.go` (construction of
the graph, `Lookup`), together with the properties the specification states.
The definitions come first (Go primitives, `parseTemplate`, `unique`, the
patterns, `parseEtymologySection`, `parseTextTag`, `New`, `Lookup`), the lemmas
and the claims follow.

Conventions of the embedding:

* A Go `string` is modelled as the list of its Unicode code points
  (`GoString`), i.e. as a valid UTF-8 string. Every byte the code compares with
  a character is compared with an ASCII character, and an ASCII byte never
  occurs inside a multi-byte UTF-8 sequence, so comparing the first / last byte
  with `'-'` is comparing the first / last code point with `'-'`.
* A Go slice is a `List`.
* An index expression `xs[i]` or a slice expression `xs[i:j]` that Go evaluates
  with a run-time bounds check is modelled by an `Option`: `none` is the
  run-time failure "index out of range".
* Where the code works on bytes in a way that code points do not follow (the
  length test and the header slice of `parseTextTag`), the bytes of the UTF-8
  encoding are used.
* A Go map is a function from keys to optional values where only lookups matter
  (`ety.go`), and the list of its entries where it is ranged over
  (`parseTextTag`); the order of a `range` over a map is left open.
* The unbounded recursion of `Lookup` is modelled with a bound on the depth of
  the nested calls; "returns" means that every deep enough evaluation gives the
  same result.
-/

set_option autoImplicit false

/-- A Go string: the sequence of its Unicode code points. -/
abbrev GoString := List Char

/-- Go index expression `xs[i]`: `none` stands for the index-out-of-range failure. -/
def goIndex {α : Type} (xs : List α) (i : Nat) : Option α := xs.get? i

/-- Go slice expression `xs[i:]`: `none` stands for the slice-bounds failure. -/
def goSliceFrom {α : Type} (xs : List α) (i : Nat) : Option (List α) :=
  if i ≤ xs.length then some (xs.drop i) else none

namespace strings

/-- `strings.Trim(s, cutset)`: `s` without its leading and trailing code points
that belong to `cutset`. -/
def Trim (s cutset : GoString) : GoString :=
  ((s.dropWhile (fun c => cutset.contains c)).reverse.dropWhile
    (fun c => cutset.contains c)).reverse

/-- Worker of `Split`: the first argument counts the code points of a separator
occurrence that are still to be skipped. -/
def splitGo (sep : GoString) : Nat → GoString → List GoString
  | _, [] => [[]]
  | skip + 1, _ :: cs => splitGo sep skip cs
  | 0, c :: cs =>
    if sep.isPrefixOf (c :: cs) then [] :: splitGo sep (sep.length - 1) cs
    else
      match splitGo sep 0 cs with
      | [] => [[c]]
      | p :: ps => (c :: p) :: ps

/-- `strings.Split(s, sep)` for a non-empty separator: the pieces of `s` between
the successive non-overlapping occurrences of `sep`, found from the left. There
is always at least one piece. -/
def Split (s sep : GoString) : List GoString := splitGo sep 0 s

/-- `strings.Contains(s, substr)` for a one-character `substr`. -/
def Contains (s : GoString) (c : Char) : Bool := s.contains c

/-- `unicode.IsSpace`: the code points with the Unicode White_Space property. -/
def isSpace (c : Char) : Bool :=
  let n := c.toNat
  (9 ≤ n && n ≤ 13) || n == 32 || n == 0x85 || n == 0xA0 || n == 0x1680 ||
  (0x2000 ≤ n && n ≤ 0x200A) || n == 0x2028 || n == 0x2029 || n == 0x202F ||
  n == 0x205F || n == 0x3000

/-- `strings.TrimSpace(s)`: `s` without leading and trailing white space. -/
def TrimSpace (s : GoString) : GoString :=
  ((s.dropWhile isSpace).reverse.dropWhile isSpace).reverse

end strings

namespace wiktparse

/-- Modelled from the spec: the declaration of `referenceType` and of its six
constants is not part of the given sources; the specification lists the relation
kinds `Component`, `Prefix`, `Suffix`, `Inherited`, `Borrowed`, `Derived`. -/
inductive referenceType where
  | refTypeComponent
  | refTypePrefix
  | refTypeSuffix
  | refTypeInherited
  | refTypeBorrowed
  | refTypeDerived
  deriving DecidableEq, Repr

open referenceType

/-- Modelled from the spec: the declaration of `langWord` is not part of the given
sources; `parse.go` builds it with the two string fields `language` and `word`. -/
structure langWord where
  language : GoString
  word : GoString
  deriving DecidableEq, Repr

/-- Modelled from the spec: the declaration of `reference` is not part of the
given sources; `parse.go` builds it with the fields `refType` and `word`. -/
structure reference where
  refType : referenceType
  word : langWord
  deriving DecidableEq, Repr

/-- Lines 179-191 of `parseTemplate`: the positional components of a template.
The braces are trimmed from both ends, the text is split on the pipe, every
piece that contains an equals sign is dropped and the others are trimmed of
white space. -/
def templateComponents (template : GoString) : List GoString :=
  ((strings.Split (strings.Trim template "{}".toList) "|".toList).filter
    (fun comp => !strings.Contains comp '=')).map strings.TrimSpace

/-- Lines 226-228 and 286-288: `if pre[len(pre)-1] != '-' { pre = pre + "-" }`. -/
def hyphenAtEnd (pre : GoString) : Option GoString :=
  (goIndex pre (pre.length - 1)).map fun last =>
    if last ≠ '-' then pre ++ "-".toList else pre

/-- Lines 256-258 and 313-315: `if suf[0] != '-' { suf = "-" + suf }`. -/
def hyphenAtStart (suf : GoString) : Option GoString :=
  (goIndex suf 0).map fun first =>
    if first ≠ '-' then "-".toList ++ suf else suf

/-- Lines 359-369 of `parseTemplate`: the code after the switch, reached by the
`inh`, `bor` and `der` families with their reference type. -/
def afterSwitch (components : List GoString) (refType : referenceType) :
    Option (List reference) :=
  if components.length < 4 then some []
  else
    (goIndex components 2).bind fun language =>
    (goIndex components 3).bind fun word =>
    some [⟨refType, ⟨language, word⟩⟩]

/-- Lines 204-213 of `parseTemplate`: the loop `for _, comp := range components[2:]`
appends one `Component` reference per element, reading `components[1]` each time. -/
def affixLoop (components : List GoString) : List GoString → Option (List reference)
  | [] => some []
  | comp :: rest =>
    (goIndex components 1).bind fun language =>
    (affixLoop components rest).map fun refs =>
      (⟨refTypeComponent, ⟨language, comp⟩⟩ : reference) :: refs

/-- Lines 193-369 of `parseTemplate`: the switch on the template name and the
code after it, run on the positional components. `none` is an
index-out-of-range failure. -/
def parseComponents (components : List GoString) : Option (List reference) :=
  if components.length = 0 then some []
  else
    (goIndex components 0).bind fun name =>
    if name = "af".toList ∨ name = "affix".toList ∨ name = "com".toList ∨
        name = "compound".toList then
      if components.length < 3 then some []
      else
        (goSliceFrom components 2).bind fun tail => affixLoop components tail
    else if name = "pre".toList ∨ name = "prefix".toList then
      if components.length < 4 then some []
      else
        (goIndex components 2).bind fun pre =>
        if pre.length = 0 then some []
        else
          (hyphenAtEnd pre).bind fun pre =>
          (goIndex components 1).bind fun language =>
          (goIndex components 3).bind fun word =>
          some [⟨refTypePrefix, ⟨language, pre⟩⟩, ⟨refTypeComponent, ⟨language, word⟩⟩]
    else if name = "suf".toList ∨ name = "suffix".toList then
      if components.length < 4 then some []
      else
        (goIndex components 3).bind fun suf =>
        if suf.length = 0 then some []
        else
          (hyphenAtStart suf).bind fun suf =>
          (goIndex components 1).bind fun language =>
          (goIndex components 2).bind fun word =>
          some [⟨refTypeComponent, ⟨language, word⟩⟩, ⟨refTypeSuffix, ⟨language, suf⟩⟩]
    else if name = "con".toList ∨ name = "confix".toList then
      if components.length < 4 then some []
      else
        (goIndex components 2).bind fun pre =>
        if pre.length = 0 then some []
        else
          (hyphenAtEnd pre).bind fun pre =>
          (goIndex components 1).bind fun language =>
          let references : List reference := [⟨refTypePrefix, ⟨language, pre⟩⟩]
          (if components.length > 4 then
              (goIndex components 1).bind fun language =>
              (goIndex components 3).bind fun word =>
              some (references ++ [⟨refTypeComponent, ⟨language, word⟩⟩])
            else some references).bind fun references =>
          (goIndex components (components.length - 1)).bind fun suf =>
          if suf.length = 0 then some []
          else
            (hyphenAtStart suf).bind fun suf =>
            (goIndex components 1).bind fun language =>
            some (references ++ [⟨refTypeSuffix, ⟨language, suf⟩⟩])
    else if name = "inh".toList ∨ name = "inherited".toList then
      afterSwitch components refTypeInherited
    else if name = "bor".toList ∨ name = "borrowed".toList then
      afterSwitch components refTypeBorrowed
    else if name = "der".toList ∨ name = "derived".toList then
      afterSwitch components refTypeDerived
    else if name = "m".toList ∨ name = "mention".toList then
      if components.length < 3 then some []
      else
        (goIndex components 2).bind fun word =>
        (if word = [] ∧ components.length ≥ 4 then goIndex components 3
          else some word).bind fun word =>
        if word = [] then some []
        else
          (goIndex components 1).bind fun language =>
          (goIndex components 2).bind fun emitted =>
          some [⟨refTypeDerived, ⟨language, emitted⟩⟩]
    else some []

/-- Lines 179-369 of `parseTemplate`: the body of the function, before the
deferred filter runs. -/
def parseTemplateBody (template : GoString) : Option (List reference) :=
  parseComponents (templateComponents template)

/-- Lines 167-177 of `parseTemplate`: the deferred function keeps the references
whose word is not the placeholder `"-"`, in order. -/
def dropPlaceholders (refs : List reference) : List reference :=
  refs.filter fun ref => ref.word.word ≠ "-".toList

/-- `parseTemplate`: the references one template makes. `none` is a run-time
failure of the body (the deferred filter does not turn a failure into a result). -/
def parseTemplate (template : GoString) : Option (List reference) :=
  (parseTemplateBody template).map dropPlaceholders

end wiktparse

/-- Go slice expression `xs[:j]`: `none` stands for the slice-bounds failure. -/
def goSliceTo {α : Type} (xs : List α) (j : Nat) : Option (List α) :=
  if j ≤ xs.length then some (xs.take j) else none

namespace wiktparse

/-- Line 377 of `unique`: `append(refs[:i2], refs[i2+1:]...)`, the list without
its element at index `i2`. -/
def deleteAt (refs : List reference) (i2 : Nat) : Option (List reference) :=
  (goSliceTo refs i2).bind fun front =>
  (goSliceFrom refs (i2 + 1)).bind fun back => some (front ++ back)

/-- Lines 374-380 of `unique`: the inner loop `for i2 < len(refs)` from the index
`i2` on. When `refs[i]` equals `refs[i2]` the element at `i2` is deleted and
`i2--` followed by the loop's `i2++` leaves the index where it is; otherwise the
index moves on. -/
def uniqueInner (i : Nat) (refs : List reference) (i2 : Nat) : Option (List reference) :=
  if i2 < refs.length then
    match goIndex refs i, goIndex refs i2 with
    | some a, some b =>
      if a = b then
        match h : deleteAt refs i2 with
        | some refs2 => uniqueInner i refs2 i2
        | none => none
      else uniqueInner i refs (i2 + 1)
    | _, _ => none
  else some refs
termination_by refs.length - i2
decreasing_by
  · simp_wf
    have hlen : refs2.length + 1 = refs.length := by
      unfold deleteAt goSliceTo goSliceFrom at h
      have h1 : i2 + 1 ≤ refs.length := by omega
      have h2 : i2 ≤ refs.length := by omega
      simp only [h1, h2, if_true, Option.some_bind, Option.some.injEq] at h
      subst h
      simp only [List.length_append, List.length_take, List.length_drop]
      omega
    omega
  · simp_wf
    omega

/-- Deleting the element that follows the front part `front`. -/
theorem deleteAt_append (front : List reference) (b : reference) (back : List reference) :
    deleteAt (front ++ b :: back) front.length = some (front ++ back) := by
  unfold deleteAt goSliceTo goSliceFrom
  simp

/-- The inner loop of `unique`, run from the index `front.length` on a list
`front ++ back` whose element at `i` lies in `front`: it returns, and it removes
from `back` exactly the elements equal to that element. -/
theorem uniqueInner_eq (i : Nat) (a : reference) (back front : List reference)
    (ha : goIndex front i = some a) :
    uniqueInner i (front ++ back) front.length =
      some (front ++ back.filter fun b => b ≠ a) := by
  induction back generalizing front with
  | nil =>
    rw [uniqueInner]
    simp
  | cons b back ih =>
    have hi : goIndex (front ++ b :: back) i = some a := by
      unfold goIndex at ha ⊢
      rw [List.get?_eq_getElem?] at ha ⊢
      have hlt : i < front.length := by
        by_contra hge
        rw [List.getElem?_eq_none (by omega)] at ha
        exact Option.noConfusion ha
      rw [List.getElem?_append_left hlt]
      exact ha
    have hb : goIndex (front ++ b :: back) front.length = some b := by
      unfold goIndex
      rw [List.get?_eq_getElem?, List.getElem?_append_right (Nat.le_refl _)]
      simp
    rw [uniqueInner]
    have hlt : front.length < (front ++ b :: back).length := by simp
    rw [if_pos hlt]
    simp only [hi, hb]
    by_cases hab : a = b
    · subst hab
      simp only [if_true]
      split
      · rename_i refs2 h2
        rw [deleteAt_append] at h2
        cases h2
        rw [ih front ha]
        simp
      · rename_i h2
        rw [deleteAt_append] at h2
        exact Option.noConfusion h2
    · rw [if_neg hab]
      have hfront : goIndex (front ++ [b]) i = some a := by
        unfold goIndex at ha ⊢
        rw [List.get?_eq_getElem?] at ha ⊢
        have hlt2 : i < front.length := by
          by_contra hge
          rw [List.getElem?_eq_none (by omega)] at ha
          exact Option.noConfusion ha
        rw [List.getElem?_append_left hlt2]
        exact ha
      have := ih (front ++ [b]) hfront
      simp only [List.append_assoc, List.singleton_append, List.length_append,
        List.length_singleton] at this
      rw [this]
      have hba : b ≠ a := fun h => hab h.symm
      simp [hba]

/-- The inner loop started right after the index `i` of an existing element: it
returns the list up to `i` followed by the rest without the elements equal to
the one at `i`. -/
theorem uniqueInner_start (i : Nat) (refs : List reference) (hi : i < refs.length) :
    ∃ a, goIndex refs i = some a ∧
      uniqueInner i refs (i + 1) =
        some (refs.take (i + 1) ++ (refs.drop (i + 1)).filter fun b => b ≠ a) := by
  have hlen : (refs.take (i + 1)).length = i + 1 := by
    rw [List.length_take]; omega
  have hget : goIndex (refs.take (i + 1)) i = some (refs.get ⟨i, hi⟩) := by
    unfold goIndex
    rw [List.get?_eq_getElem?, List.getElem?_take_of_lt (Nat.lt_succ_self i),
      List.getElem?_eq_getElem hi]
    rfl
  refine ⟨refs.get ⟨i, hi⟩, ?_, ?_⟩
  · unfold goIndex
    rw [List.get?_eq_getElem?, List.getElem?_eq_getElem hi]
    rfl
  · have := uniqueInner_eq i (refs.get ⟨i, hi⟩) (refs.drop (i + 1)) (refs.take (i + 1)) hget
    rw [List.take_append_drop, hlen] at this
    exact this

/-- Lines 373-381 of `unique`: the outer loop `for i < len(refs)` from the index
`i` on; each round runs the inner loop from `i + 1`. -/
def uniqueOuter (refs : List reference) (i : Nat) : Option (List reference) :=
  if i < refs.length then
    match h : uniqueInner i refs (i + 1) with
    | some refs2 => uniqueOuter refs2 (i + 1)
    | none => none
  else some refs
termination_by refs.length - i
decreasing_by
  simp_wf
  rename_i hi
  obtain ⟨a, _, hrun⟩ := uniqueInner_start i refs hi
  rw [hrun] at h
  cases h
  have hle := List.length_filter_le (fun b => decide (b ≠ a)) (refs.drop (i + 1))
  simp only [List.length_append, List.length_take, List.length_drop] at hle ⊢
  omega

/-- The function `unique` of `parse.go`: the deduplicated list it returns. `none`
is a run-time index failure. -/
def unique (refs : List reference) : Option (List reference) := uniqueOuter refs 0

/-- What the specification asks of the deduplicator, in its own words: the
references that are not equal to an earlier one, in their order. -/
def firstOccurrences : List reference → List reference
  | [] => []
  | r :: rs => r :: (firstOccurrences rs).filter fun b => b ≠ r

end wiktparse


/-- Go slice expression `xs[lo:hi]` with `int` bounds: `none` stands for the
slice-bounds failure. -/
def goSlice {α : Type} (xs : List α) (lo hi : Int) : Option (List α) :=
  if 0 ≤ lo ∧ lo ≤ hi ∧ hi ≤ xs.length then some ((xs.take hi.toNat).drop lo.toNat) else none

namespace regexp

/-- A compiled pattern of the shape `opening [^stop]* closing`, where `closing`
begins with the character `stop`: the length of its match at the head of `s`,
if there is one. The starred class is greedy and stops at the first `stop`; no
shorter run can be followed by `closing`, so the match at a position is unique.
All four patterns of `parse.go` have this shape, and a match is never empty. -/
def matchDelimited (opening : GoString) (stop : Char) (closing : GoString) (s : GoString) :
    Option Nat :=
  if opening.isPrefixOf s then
    if closing.isPrefixOf ((s.drop opening.length).dropWhile fun c => c ≠ stop) then
      some (opening.length + ((s.drop opening.length).takeWhile fun c => c ≠ stop).length +
        closing.length)
    else none
  else none

/-- Worker of `ReplaceAllString` with the empty replacement: the first argument
counts the code points of the current match that are still to be dropped. -/
def replaceAllGo (re : GoString → Option Nat) : Nat → GoString → GoString
  | _, [] => []
  | skip + 1, _ :: cs => replaceAllGo re skip cs
  | 0, c :: cs =>
    match re (c :: cs) with
    | some k => replaceAllGo re (k - 1) cs
    | none => c :: replaceAllGo re 0 cs

/-- `re.ReplaceAllString(src, "")`: `src` without the successive non-overlapping
matches of `re`, found from the left. -/
def ReplaceAllString (re : GoString → Option Nat) (src : GoString) : GoString :=
  replaceAllGo re 0 src

/-- Worker of `FindAllString`: the first argument counts the code points of the
current match that are still to be passed. -/
def findAllGo (re : GoString → Option Nat) : Nat → GoString → List GoString
  | _, [] => []
  | skip + 1, _ :: cs => findAllGo re skip cs
  | 0, c :: cs =>
    match re (c :: cs) with
    | some k => (c :: cs).take k :: findAllGo re (k - 1) cs
    | none => findAllGo re 0 cs

/-- `re.FindAllString(s, -1)`: the successive non-overlapping matches of `re` in
`s`, found from the left. -/
def FindAllString (re : GoString → Option Nat) (s : GoString) : List GoString :=
  findAllGo re 0 s

end regexp

namespace wiktparse

/-- Line 104: the pattern `\([^)]*\)`. -/
def withinParenRegex : GoString → Option Nat :=
  regexp.matchDelimited "(".toList ')' ")".toList

/-- Line 105: the pattern `\{\{root[^}]*\}\}`. -/
def rootTemplateRegex : GoString → Option Nat :=
  regexp.matchDelimited "\x7b\x7broot".toList '}' "\x7d\x7d".toList

/-- Line 106: the pattern `(?s)\{\{multiple[^}]*\}\}`; the flag only changes the
meaning of the dot, which the pattern does not use. -/
def imgTemplateRegex : GoString → Option Nat :=
  regexp.matchDelimited "\x7b\x7bmultiple".toList '}' "\x7d\x7d".toList

/-- Line 107: the pattern `\{\{[^}]*\}\}`. -/
def templatesRegex : GoString → Option Nat :=
  regexp.matchDelimited "\x7b\x7b".toList '}' "\x7d\x7d".toList

/-- The local variables of `parseEtymologySection` that the scan updates
(lines 112-117). -/
structure scanState where
  templateCount : Int
  startIndex : Int
  endIndex : Int
  containedTemplate : Bool
  deriving DecidableEq, Repr

/-- Lines 122-143 of `parseEtymologySection`: the loop `for i, c := range section`
from the index `i` on. A comma, period or newline at depth 0 ends the scan when a
brace has been seen (`break outer`) and moves the start index otherwise. Indices
count code points; every index the code keeps is the position of an ASCII
character or the end of the text, where code-point and byte offsets cut the text
alike. -/
def scanLoop : GoString → Int → scanState → scanState
  | [], _, st => st
  | c :: cs, i, st =>
    if c = '{' then
      scanLoop cs (i + 1)
        { st with templateCount := st.templateCount + 1, containedTemplate := true }
    else if c = '}' then
      scanLoop cs (i + 1) { st with templateCount := st.templateCount - 1 }
    else if c = ',' ∨ c = '.' ∨ c = '\n' then
      if st.containedTemplate = true ∧ st.templateCount = 0 then
        { st with endIndex := i - 1 }
      else if st.templateCount = 0 then
        scanLoop cs (i + 1) { st with startIndex := i }
      else scanLoop cs (i + 1) st
    else scanLoop cs (i + 1) st

/-- Lines 157-160 of `parseEtymologySection`: the loop that appends the
references of each template found. -/
def templatesLoop : List GoString → Option (List reference)
  | [] => some []
  | template :: rest =>
    (parseTemplate template).bind fun refs =>
    (templatesLoop rest).map fun more => refs ++ more

/-- The function `parseEtymologySection` of `parse.go` (lines 110-163). `none` is
a run-time failure (slice bounds or index out of range). -/
def parseEtymologySection (text : GoString) : Option (List reference) :=
  let endIndex : Int := (text.length : Int) - 1
  let text := regexp.ReplaceAllString rootTemplateRegex text
  let text := regexp.ReplaceAllString imgTemplateRegex text
  let st := scanLoop text 0 ⟨0, 0, endIndex, false⟩
  if st.containedTemplate = false then some []
  else if st.endIndex > (text.length : Int) then some []
  else
    (goSlice text st.startIndex (st.endIndex + 1)).bind fun text =>
    templatesLoop
      (regexp.FindAllString templatesRegex (regexp.ReplaceAllString withinParenRegex text))

end wiktparse

namespace regexp

/-- The text `s` contains `opening`, then characters other than `stop`, then
`closing`. -/
def containsSpan (opening : GoString) (stop : Char) (closing : GoString) (s : GoString) :
    Prop :=
  ∃ pre body post, s = pre ++ opening ++ body ++ closing ++ post ∧ stop ∉ body

end regexp

namespace wiktparse

/-- Lines 119-120 of `parseEtymologySection`: the section text after the root and
the multiple-images templates are removed. -/
def strippedSection (text : GoString) : GoString :=
  regexp.ReplaceAllString imgTemplateRegex (regexp.ReplaceAllString rootTemplateRegex text)

/-- Lines 112-143 of `parseEtymologySection`: the state after the scan of the
stripped text; the end index starts from the length of the text before the
removal (line 115 runs before line 119). -/
def sectionScan (text : GoString) : scanState :=
  scanLoop (strippedSection text) 0 ⟨0, 0, (text.length : Int) - 1, false⟩

end wiktparse

namespace wiktparse

/-- The brace depth of a text: the number of its opening braces minus the number
of its closing braces. -/
def braceDepth : GoString → Int
  | [] => 0
  | c :: cs => (if c = '{' then 1 else if c = '}' then -1 else 0) + braceDepth cs

/-- The index `j` of `text` holds a comma, period or newline at brace depth 0
after at least one opening brace: the condition on which the scan stops. -/
def stopAt (text : GoString) (j : Nat) : Prop :=
  (text.get? j = some ',' ∨ text.get? j = some '.' ∨ text.get? j = some '\n') ∧
    '{' ∈ text.take j ∧ braceDepth (text.take j) = 0

instance (text : GoString) (j : Nat) : Decidable (stopAt text j) := by
  unfold stopAt
  infer_instance

/-- The text contains neither a root template nor a multiple-images template. -/
def freeOfRemovedTemplates (text : GoString) : Prop :=
  ¬ regexp.containsSpan "\x7b\x7broot".toList '}' "\x7d\x7d".toList text ∧
    ¬ regexp.containsSpan "\x7b\x7bmultiple".toList '}' "\x7d\x7d".toList text

/-- One round of the scan that does not end it: the state after the character
`x` at index `i` (lines 124-142 without the `break`). -/
def stepState (x : Char) (i : Int) (st : scanState) : scanState :=
  if x = '{' then
    { st with templateCount := st.templateCount + 1, containedTemplate := true }
  else if x = '}' then { st with templateCount := st.templateCount - 1 }
  else if (x = ',' ∨ x = '.' ∨ x = '\n') ∧ st.templateCount = 0 then { st with startIndex := i }
  else st

/-- No character of `p` ends a scan that reaches `p` in the state `st`. -/
def NoStop (st : scanState) (p : GoString) : Prop :=
  ∀ p1 c p2, p = p1 ++ c :: p2 → (c = ',' ∨ c = '.' ∨ c = '\n') →
    ¬ ((st.containedTemplate = true ∨ '{' ∈ p1) ∧ st.templateCount + braceDepth p1 = 0)

end wiktparse


/-- The UTF-8 encoding of a code point, as the list of its bytes. -/
def utf8EncodeChar (c : Char) : List Nat :=
  let n := c.toNat
  if n < 0x80 then [n]
  else if n < 0x800 then [0xC0 + n / 64, 0x80 + n % 64]
  else if n < 0x10000 then [0xE0 + n / 4096, 0x80 + n / 64 % 64, 0x80 + n % 64]
  else [0xF0 + n / 262144, 0x80 + n / 4096 % 64, 0x80 + n / 64 % 64, 0x80 + n % 64]

/-- The bytes of a Go string: `len(s)` is the length of this list and `s[i]` its
element at `i`. -/
def utf8Encode (s : GoString) : List Nat := s.flatMap utf8EncodeChar

namespace wiktparse

/-- Modelled from the spec: the declaration of `referenceType` is not part of the
given sources; the emitted label `rel:<refType>` carries the lower-case relation
kind name. -/
def refTypeName : referenceType → GoString
  | .refTypeComponent => "component".toList
  | .refTypePrefix => "prefix".toList
  | .refTypeSuffix => "suffix".toList
  | .refTypeInherited => "inherited".toList
  | .refTypeBorrowed => "borrowed".toList
  | .refTypeDerived => "derived".toList

/-- The local variables of the first loop of `parseTextTag` (lines 57-61). The
current language is kept as bytes, since line 69 cuts it out of the line at byte
offsets; the map `sections` is kept as the list of its entries, each key once,
in the order in which the keys were first written. -/
structure splitState where
  currentLanguage : List Nat
  inEtymologySection : Bool
  sections : List (GoString × GoString)
  deriving DecidableEq, Repr

/-- Line 91: `sections[languageCode] += value` on the list of entries. -/
def sectionsAppend : List (GoString × GoString) → GoString → GoString →
    List (GoString × GoString)
  | [], key, value => [(key, value)]
  | (k, v) :: rest, key, value =>
    if k = key then (k, v ++ value) :: rest else (k, v) :: sectionsAppend rest key value

/-- Lines 64-92 of `parseTextTag`: one round of the loop over the lines.
`CodeFromName` is the method of `wiktlang.Languages`, which is not part of the
given sources and is taken as a parameter. `none` is an index-out-of-range
failure. -/
def splitLine (CodeFromName : List Nat → Option GoString) (st : splitState)
    (line : GoString) : Option splitState :=
  let bytes := utf8Encode line
  if bytes.length < 4 then some st
  else
    (goIndex bytes 0).bind fun b0 =>
    (goIndex bytes 1).bind fun b1 =>
    (goIndex bytes 2).bind fun b2 =>
    if b0 = '='.toNat ∧ b1 = '='.toNat ∧ b2 ≠ '='.toNat then
      (goSlice bytes 2 ((bytes.length : Int) - 2)).bind fun name =>
      some { st with currentLanguage := name }
    else if line = "===Etymology===".toList then some { st with inEtymologySection := true }
    else if b0 = '='.toNat then some { st with inEtymologySection := false }
    else if st.inEtymologySection = true then
      match CodeFromName st.currentLanguage with
      | none => some st
      | some languageCode =>
        some { st with sections := sectionsAppend st.sections languageCode (line ++ "\n".toList) }
    else some st

/-- Lines 63-93 of `parseTextTag`: the loop over the lines, from a state. -/
def splitLoop (CodeFromName : List Nat → Option GoString) :
    splitState → List GoString → Option splitState
  | st, [] => some st
  | st, line :: rest => (splitLine CodeFromName st line).bind fun st2 =>
      splitLoop CodeFromName st2 rest

/-- Lines 57-93 of `parseTextTag`: the entries of the map `sections` after the
first loop. -/
def splitSections (CodeFromName : List Nat → Option GoString) (text : GoString) :
    Option (List (GoString × GoString)) :=
  (splitLoop CodeFromName ⟨[], false, []⟩ (strings.Split text "\n".toList)).map
    fun st => st.sections

/-- Line 98: the line written for one reference. -/
def relationLine (lang title : GoString) (ref : reference) : GoString :=
  lang ++ ":".toList ++ title ++ "\trel:".toList ++ refTypeName ref.refType ++ "\t".toList ++
    ref.word.language ++ ":".toList ++ ref.word.word ++ "\n".toList

/-- Lines 96-99 of `parseTextTag`: the lines written for one entry of the map. -/
def emitSection (title : GoString) (entry : GoString × GoString) : Option (List GoString) :=
  (parseEtymologySection entry.2).bind fun refs =>
  (unique refs).map fun refs => refs.map (relationLine entry.1 title)

/-- Lines 95-100 of `parseTextTag`: the lines written when the `range` loop
visits the entries of the map in the order `order`. -/
def emitSections (title : GoString) : List (GoString × GoString) → Option (List GoString)
  | [] => some []
  | entry :: rest =>
    (emitSection title entry).bind fun block =>
    (emitSections title rest).map fun more => block ++ more

/-- The function `parseTextTag`, as the relation between its input and the
bytes it writes. Go does not specify the order in which `range` visits a map, and
the runtime varies it from one loop to the next: a run visits the entries of
`sections` in some order, any permutation of them. -/
def parseTextTagWrites (CodeFromName : List Nat → Option GoString) (title text : GoString)
    (written : GoString) : Prop :=
  ∃ sections order lines, splitSections CodeFromName text = some sections ∧
    order.Perm sections ∧ emitSections title order = some lines ∧ written = lines.flatten

/-- A language table for the examples: `English` has the code `en`, `French` the
code `fr`, no other name has a code. -/
def exampleLanguages (name : List Nat) : Option GoString :=
  if name = utf8Encode "English".toList then some "en".toList
  else if name = utf8Encode "French".toList then some "fr".toList
  else none

end wiktparse


namespace etymology

/-- The type `Word` of `ety.go` (lines 10-13). -/
structure Word where
  Language : GoString
  Word : GoString
  deriving DecidableEq, Repr

/-- A Go `map[Word][]Word`: the value of a key, `none` when the key is absent. -/
abbrev edgeMap := Word → Option (List Word)

/-- The type `Etymology` of `ety.go` (lines 15-18). -/
structure Etymology where
  derivedFromEdges : edgeMap
  etymologyEdges : edgeMap

/-- Line 51 of `New`: `m[key] = append(m[key], value)`; the value of an absent
key is the nil slice. -/
def mapAppend (m : edgeMap) (key value : Word) : edgeMap :=
  fun w => if w = key then some ((m key).getD [] ++ [value]) else m w

/-- Lines 26-54 of `New`: one round of the loop, on the line the scanner
returned. `none` is an index-out-of-range failure. The diagnostic of line 48 is
printed on the standard output and changes nothing in the maps; it is not
modelled. -/
def newLine (g : Etymology) (line : GoString) : Option Etymology :=
  let components := strings.Split line "\t".toList
  (goIndex components 1).bind fun label =>
  if label = "rel:etymology".toList ∨ label = "rel:is_derived_from".toList then
    (goIndex components 0).bind fun first =>
    (goIndex components 2).bind fun third =>
    (goIndex (strings.Split first ": ".toList) 0).bind fun fromLanguage =>
    (goIndex (strings.Split first ": ".toList) 1).bind fun fromWord =>
    (goIndex (strings.Split third ": ".toList) 0).bind fun toLanguage =>
    (goIndex (strings.Split third ": ".toList) 1).bind fun toWord =>
    let source : Word := ⟨fromLanguage, fromWord⟩
    let target : Word := ⟨toLanguage, toWord⟩
    if label = "rel:etymology".toList then
      some { g with etymologyEdges := mapAppend g.etymologyEdges source target }
    else
      some { g with derivedFromEdges := mapAppend g.derivedFromEdges source target }
  else some g

/-- Lines 25-55 of `New`: the loop `for scanner.Scan()` over the lines the
scanner returns. -/
def newLoop : Etymology → List GoString → Option Etymology
  | g, [] => some g
  | g, line :: rest => (newLine g line).bind fun g2 => newLoop g2 rest

/-- The function `New` of `ety.go` (lines 20-62), on what `bufio.Scanner` makes of
the reader: the lines it returns and the error it reports at the end, if any.
The outer `none` is a run-time failure, `Except.error` the error `New` returns. -/
def New (lines : List GoString) (scanErr : Option GoString) :
    Option (Except GoString Etymology) :=
  (newLoop ⟨fun _ => none, fun _ => none⟩ lines).map fun g =>
    match scanErr with
    | some err => Except.error ("failed to scan file: ".toList ++ err)
    | none => Except.ok g

/-- The type `Node` of `ety.go` (lines 71-75). -/
inductive Node where
  | mk (Word : Word) (DerivedFrom : List Node) (Etymology : List Node)

/-- The field `Word` of a node. -/
def Node.Word : Node → Word
  | .mk w _ _ => w

/-- The field `DerivedFrom` of a node. -/
def Node.DerivedFrom : Node → List Node
  | .mk _ d _ => d

/-- The field `Etymology` of a node. -/
def Node.Etymology : Node → List Node
  | .mk _ _ e => e

/-- Lines 82-85 and 87-90 of `Lookup`: the loop that looks up each target and
appends the node; it fails as soon as one lookup does. -/
def lookupAll (lookup : Word → Option Node) : List Word → Option (List Node)
  | [] => some []
  | w :: ws => (lookup w).bind fun n => (lookupAll lookup ws).map fun ns => n :: ns

/-- The method `Lookup` of `ety.go` (lines 77-93). Its recursion has no bound of
its own; the first argument bounds the depth of the nested calls, and `none`
says that the evaluation needs more nested calls than that. -/
def Lookup (e : Etymology) : Nat → Word → Option Node
  | 0, _ => none
  | depth + 1, word =>
    (lookupAll (Lookup e depth) ((e.derivedFromEdges word).getD [])).bind fun derivedFrom =>
    (lookupAll (Lookup e depth) ((e.etymologyEdges word).getD [])).bind fun etymology =>
    some (Node.mk word derivedFrom etymology)

/-- `Lookup(word)` returns the node `n`: every evaluation deep enough gives `n`. -/
def LookupReturns (e : Etymology) (word : Word) (n : Node) : Prop :=
  ∃ depth, ∀ d, depth ≤ d → Lookup e d word = some n

/-- An edge of the graph, of either map: `b` is a target of `a`. -/
def edge (e : Etymology) (a b : Word) : Prop :=
  b ∈ (e.derivedFromEdges a).getD [] ∨ b ∈ (e.etymologyEdges a).getD []

/-- A cycle of edges is reachable from `w`: some word reachable from `w` in zero
or more steps reaches itself in one or more steps. -/
def cycleReachable (e : Etymology) (w : Word) : Prop :=
  ∃ v, Relation.ReflTransGen (edge e) w v ∧ Relation.TransGen (edge e) v v

/-- A relation record of the stream `New` reads. -/
structure record where
  source : Word
  label : GoString
  target : Word
  deriving DecidableEq, Repr

/-- The line of a word: `<lang>: <word>`. -/
def renderWord (w : Word) : GoString := w.Language ++ ": ".toList ++ w.Word

/-- The line of a record: source, TAB, label, TAB, target. -/
def renderRecord (r : record) : GoString :=
  renderWord r.source ++ "\t".toList ++ r.label ++ "\t".toList ++ renderWord r.target

/-- A language or a word of a well-formed record: no tab, no newline and no
`": "` inside. -/
def fieldOk (s : GoString) : Prop :=
  '\t' ∉ s ∧ '\n' ∉ s ∧ ¬ ": ".toList <:+: s

instance (s : GoString) : Decidable (fieldOk s) := by
  unfold fieldOk
  infer_instance

/-- A well-formed record: its languages and words are well formed and its label
has no tab and no newline. -/
def recordOk (r : record) : Prop :=
  fieldOk r.source.Language ∧ fieldOk r.source.Word ∧ fieldOk r.target.Language ∧
    fieldOk r.target.Word ∧ '\t' ∉ r.label ∧ '\n' ∉ r.label

instance (r : record) : Decidable (recordOk r) := by
  unfold recordOk
  infer_instance

/-- The targets of the records with the label `label` and the source `w`, in
stream order. -/
def targetsOf (records : List record) (label : GoString) (w : Word) : List Word :=
  (records.filter fun r => r.label = label ∧ r.source = w).map fun r => r.target

/-- The lines on which `New` is claimed to fail: the line has no tab, or its
label is one of the two relation labels and it has no third tab-separated field
or its first or its third field does not contain `": "`. -/
def lineFails (line : GoString) : Prop :=
  '\t' ∉ line ∨
    ((goIndex (strings.Split line "\t".toList) 1 = some "rel:etymology".toList ∨
        goIndex (strings.Split line "\t".toList) 1 = some "rel:is_derived_from".toList) ∧
      ((strings.Split line "\t".toList).length < 3 ∨
        ¬ ": ".toList <:+: (strings.Split line "\t".toList).getD 0 [] ∨
        ¬ ": ".toList <:+: (strings.Split line "\t".toList).getD 2 []))

instance (line : GoString) : Decidable (lineFails line) := by
  unfold lineFails
  infer_instance

end etymology

namespace etymology

/-- What a well-formed record does to the two maps, in the words of the
specification: an etymology record appends its target to the etymology edges of
its source, a derivation record to the derived-from edges, any other record
changes nothing. -/
def applyRecord (g : Etymology) (r : record) : Etymology :=
  if r.label = "rel:etymology".toList then
    { g with etymologyEdges := mapAppend g.etymologyEdges r.source r.target }
  else if r.label = "rel:is_derived_from".toList then
    { g with derivedFromEdges := mapAppend g.derivedFromEdges r.source r.target }
  else g

/-- The edge list of a key after the targets `ts` are appended to it: an absent
key stays absent when there is nothing to append. -/
def appended (old : Option (List Word)) (ts : List Word) : Option (List Word) :=
  if ts = [] then old else some (old.getD [] ++ ts)

/-- The words reachable from `v` in one or more steps. -/
def descendants (e : Etymology) (v : Word) : Set Word :=
  {u | Relation.TransGen (edge e) v u}

/-- The records of the witness of claim C13: a repeated target, a repeated
derived-from source and a record with another label. -/
def exampleRecords : List record :=
  [⟨⟨"en".toList, "dog".toList⟩, "rel:etymology".toList, ⟨"en".toList, "doggy".toList⟩⟩,
   ⟨⟨"en".toList, "cat".toList⟩, "rel:is_derived_from".toList, ⟨"la".toList, "cattus".toList⟩⟩,
   ⟨⟨"en".toList, "dog".toList⟩, "rel:etymology".toList, ⟨"en".toList, "doggy".toList⟩⟩,
   ⟨⟨"en".toList, "cat".toList⟩, "rel:is_derived_from".toList, ⟨"fr".toList, "chat".toList⟩⟩,
   ⟨⟨"en".toList, "ox".toList⟩, "rel:mention".toList, ⟨"en".toList, "oxen".toList⟩⟩]

/-- The single record `(en,dog) -etymology-> (en,doggy)` of the round-trip
example. -/
def dogRecords : List record :=
  [⟨⟨"en".toList, "dog".toList⟩, "rel:etymology".toList, ⟨"en".toList, "doggy".toList⟩⟩]

end etymology

/-! ## Lemmas on the Go primitives -/

theorem goIndex_zero_cons {α : Type} (x : α) (xs : List α) : goIndex (x :: xs) 0 = some x := rfl

theorem goIndex_succ_cons {α : Type} (x : α) (xs : List α) (i : Nat) :
    goIndex (x :: xs) (i + 1) = goIndex xs i := rfl

theorem goIndex_last {α : Type} (xs : List α) :
    goIndex xs (xs.length - 1) = xs.getLast? := by
  unfold goIndex
  rw [List.getLast?_eq_getElem?, List.get?_eq_getElem?]

theorem goIndex_zero {α : Type} (xs : List α) : goIndex xs 0 = xs.head? := by
  cases xs <;> rfl

namespace wiktparse
open referenceType

theorem affixLoop_eq (components : List GoString) (language : GoString)
    (h : goIndex components 1 = some language) (tail : List GoString) :
    affixLoop components tail =
      some (tail.map fun comp => (⟨refTypeComponent, ⟨language, comp⟩⟩ : reference)) := by
  induction tail with
  | nil => rfl
  | cons comp rest ih => simp [affixLoop, h, ih]

theorem hyphenAtEnd_eq (pre : GoString) (h : pre ≠ []) :
    hyphenAtEnd pre = some (if pre.getLast? = some '-' then pre else pre ++ "-".toList) := by
  unfold hyphenAtEnd
  rw [goIndex_last]
  obtain ⟨c, hc⟩ : ∃ c, pre.getLast? = some c := by
    cases hp : pre.getLast? with
    | none => exact absurd (List.getLast?_eq_none_iff.mp hp) h
    | some c => exact ⟨c, rfl⟩
  rw [hc]
  by_cases hd : c = '-' <;> simp [hd]

theorem hyphenAtStart_eq (suf : GoString) (h : suf ≠ []) :
    hyphenAtStart suf = some (if suf.head? = some '-' then suf else "-".toList ++ suf) := by
  unfold hyphenAtStart
  cases suf with
  | nil => exact absurd rfl h
  | cons c cs =>
    rw [goIndex_zero_cons]
    by_cases hd : c = '-' <;> simp [hd]

end wiktparse

namespace wiktparse
open referenceType

/-! ## The template parser, family by family -/

theorem parseComponents_descent (name : GoString) (cs : List GoString) (kind : referenceType)
    (hname : ((name = "inh".toList ∨ name = "inherited".toList) ∧ kind = refTypeInherited) ∨
      ((name = "bor".toList ∨ name = "borrowed".toList) ∧ kind = refTypeBorrowed) ∨
      ((name = "der".toList ∨ name = "derived".toList) ∧ kind = refTypeDerived)) :
    parseComponents (name :: cs) = afterSwitch (name :: cs) kind := by
  unfold parseComponents
  rcases hname with ⟨h | h, hk⟩ | ⟨h | h, hk⟩ | ⟨h | h, hk⟩ <;> subst h <;> subst hk <;>
    simp [goIndex_zero_cons]

theorem afterSwitch_eq (name : GoString) (cs : List GoString) (kind : referenceType) :
    afterSwitch (name :: cs) kind = some
      (match cs with
        | _ :: c2 :: c3 :: _ => [⟨kind, ⟨c2, c3⟩⟩]
        | _ => []) := by
  unfold afterSwitch
  match cs with
  | [] => simp
  | [_] => simp
  | [_, _] => simp
  | _ :: c2 :: c3 :: rest => simp [goIndex]

theorem parseComponents_affix (name : GoString) (cs : List GoString)
    (hname : name = "af".toList ∨ name = "affix".toList ∨ name = "com".toList ∨
      name = "compound".toList) :
    parseComponents (name :: cs) = some
      (match cs with
        | L :: c2 :: rest =>
          (c2 :: rest).map fun w => (⟨refTypeComponent, ⟨L, w⟩⟩ : reference)
        | _ => []) := by
  unfold parseComponents
  match cs with
  | [] => rcases hname with h | h | h | h <;> subst h <;> simp [goIndex_zero_cons]
  | [_] => rcases hname with h | h | h | h <;> subst h <;> simp [goIndex_zero_cons]
  | L :: c2 :: rest =>
    have hL : ∀ n, goIndex (n :: L :: c2 :: rest) 1 = some L := fun _ => rfl
    rcases hname with h | h | h | h <;> subst h <;>
      simp [goIndex_zero_cons, goSliceFrom, affixLoop_eq _ L (hL _)]

theorem parseComponents_pre (name : GoString) (cs : List GoString)
    (hname : name = "pre".toList ∨ name = "prefix".toList) :
    parseComponents (name :: cs) = some
      (match cs with
        | L :: P :: W :: _ =>
          if P = [] then []
          else [⟨refTypePrefix, ⟨L, if P.getLast? = some '-' then P else P ++ "-".toList⟩⟩,
                ⟨refTypeComponent, ⟨L, W⟩⟩]
        | _ => []) := by
  unfold parseComponents
  match cs with
  | [] => rcases hname with h | h <;> subst h <;> simp [goIndex_zero_cons]
  | [_] => rcases hname with h | h <;> subst h <;> simp [goIndex_zero_cons]
  | [_, _] => rcases hname with h | h <;> subst h <;> simp [goIndex_zero_cons]
  | L :: P :: W :: rest =>
    by_cases hP : P = []
    · rcases hname with h | h <;> subst h <;>
        simp [goIndex_zero_cons, goIndex_succ_cons, hP]
    · rcases hname with h | h <;> subst h <;>
        simp [goIndex_zero_cons, goIndex_succ_cons, hP, hyphenAtEnd_eq P hP]

theorem parseComponents_suf (name : GoString) (cs : List GoString)
    (hname : name = "suf".toList ∨ name = "suffix".toList) :
    parseComponents (name :: cs) = some
      (match cs with
        | L :: W :: S :: _ =>
          if S = [] then []
          else [⟨refTypeComponent, ⟨L, W⟩⟩,
                ⟨refTypeSuffix, ⟨L, if S.head? = some '-' then S else "-".toList ++ S⟩⟩]
        | _ => []) := by
  unfold parseComponents
  match cs with
  | [] => rcases hname with h | h <;> subst h <;> simp [goIndex_zero_cons]
  | [_] => rcases hname with h | h <;> subst h <;> simp [goIndex_zero_cons]
  | [_, _] => rcases hname with h | h <;> subst h <;> simp [goIndex_zero_cons]
  | L :: W :: S :: rest =>
    by_cases hS : S = []
    · rcases hname with h | h <;> subst h <;>
        simp [goIndex_zero_cons, goIndex_succ_cons, hS]
    · rcases hname with h | h <;> subst h <;>
        simp [goIndex_zero_cons, goIndex_succ_cons, hS, hyphenAtStart_eq S hS]

theorem parseComponents_con (name L c2 c3 : GoString) (rest : List GoString)
    (hname : name = "con".toList ∨ name = "confix".toList) :
    parseComponents (name :: L :: c2 :: c3 :: rest) = some
      (if c2 = [] ∨ (c3 :: rest).getLast (List.cons_ne_nil c3 rest) = [] then []
        else
          [(⟨refTypePrefix,
              ⟨L, if c2.getLast? = some '-' then c2 else c2 ++ "-".toList⟩⟩ : reference)] ++
          (if rest ≠ [] then [(⟨refTypeComponent, ⟨L, c3⟩⟩ : reference)] else []) ++
          [(⟨refTypeSuffix,
              ⟨L, if ((c3 :: rest).getLast (List.cons_ne_nil c3 rest)).head? = some '-'
                then (c3 :: rest).getLast (List.cons_ne_nil c3 rest)
                else "-".toList ++ (c3 :: rest).getLast (List.cons_ne_nil c3 rest)⟩⟩ :
              reference)]) := by
  unfold parseComponents
  have hz : (c3 :: rest).getLast? = some ((c3 :: rest).getLast (List.cons_ne_nil c3 rest)) :=
    List.getLast?_eq_getLast _ _
  generalize (c3 :: rest).getLast (List.cons_ne_nil c3 rest) = z at hz
  have hlast : goIndex (c3 :: rest) rest.length = some z := by
    have := goIndex_last (c3 :: rest)
    simpa [hz] using this
  by_cases hc2 : c2 = []
  · rcases hname with h | h <;> subst h <;>
      simp [goIndex_zero_cons, goIndex_succ_cons, hc2]
  · match rest, hz, hlast with
    | [], hz, _ =>
      have hzc : c3 = z := by simpa using hz
      subst hzc
      by_cases hzz : c3 = [] <;> rcases hname with h | h <;> subst h <;>
        simp [goIndex_zero_cons, goIndex_succ_cons, hc2, hyphenAtEnd_eq c2 hc2, hzz,
          hyphenAtStart_eq c3]
    | r :: rs, _, hlast =>
      simp only [List.length_cons] at hlast
      by_cases hzz : z = [] <;> rcases hname with h | h <;> subst h <;>
        simp [goIndex_zero_cons, goIndex_succ_cons, hc2, hyphenAtEnd_eq c2 hc2, hzz,
          hlast, hyphenAtStart_eq z]

theorem parseComponents_mention (name : GoString) (cs : List GoString)
    (hname : name = "m".toList ∨ name = "mention".toList) :
    parseComponents (name :: cs) = some
      (match cs with
        | L :: c2 :: rest =>
          if c2 ≠ [] then [⟨refTypeDerived, ⟨L, c2⟩⟩]
          else
            match rest with
            | c3 :: _ => if c3 ≠ [] then [⟨refTypeDerived, ⟨L, c2⟩⟩] else []
            | [] => []
        | _ => []) := by
  unfold parseComponents
  match cs with
  | [] => rcases hname with h | h <;> subst h <;> simp [goIndex_zero_cons]
  | [_] => rcases hname with h | h <;> subst h <;> simp [goIndex_zero_cons]
  | [L, c2] =>
    by_cases hc : c2 = [] <;> rcases hname with h | h <;> subst h <;>
      simp [goIndex_zero_cons, goIndex_succ_cons, hc]
  | L :: c2 :: c3 :: rest =>
    by_cases hc : c2 = [] <;> by_cases hc3 : c3 = [] <;> rcases hname with h | h <;>
      subst h <;> simp [goIndex_zero_cons, goIndex_succ_cons, hc, hc3]

theorem parseComponents_other (name : GoString) (cs : List GoString)
    (hname : name ∉ ["af".toList, "affix".toList, "com".toList, "compound".toList,
      "pre".toList, "prefix".toList, "suf".toList, "suffix".toList, "con".toList,
      "confix".toList, "inh".toList, "inherited".toList, "bor".toList, "borrowed".toList,
      "der".toList, "derived".toList, "m".toList, "mention".toList]) :
    parseComponents (name :: cs) = some [] := by
  unfold parseComponents
  simp at hname
  simp [goIndex_zero_cons, hname]

/-- Every run of the switch returns: no index it reads is out of range. -/
theorem parseComponents_isSome (components : List GoString) :
    ∃ refs, parseComponents components = some refs := by
  match components with
  | [] => exact ⟨[], by simp [parseComponents]⟩
  | name :: cs =>
    by_cases h1 : name = "af".toList ∨ name = "affix".toList ∨ name = "com".toList ∨
        name = "compound".toList
    · exact ⟨_, parseComponents_affix name cs h1⟩
    by_cases h2 : name = "pre".toList ∨ name = "prefix".toList
    · exact ⟨_, parseComponents_pre name cs h2⟩
    by_cases h3 : name = "suf".toList ∨ name = "suffix".toList
    · exact ⟨_, parseComponents_suf name cs h3⟩
    by_cases h4 : name = "con".toList ∨ name = "confix".toList
    · match cs with
      | [] => rcases h4 with h | h <;> subst h <;> exact ⟨[], by simp [parseComponents, goIndex_zero_cons]⟩
      | [_] => rcases h4 with h | h <;> subst h <;> exact ⟨[], by simp [parseComponents, goIndex_zero_cons]⟩
      | [_, _] => rcases h4 with h | h <;> subst h <;> exact ⟨[], by simp [parseComponents, goIndex_zero_cons]⟩
      | L :: c2 :: c3 :: rest => exact ⟨_, parseComponents_con name L c2 c3 rest h4⟩
    by_cases h5 : name = "inh".toList ∨ name = "inherited".toList
    · exact ⟨_, (parseComponents_descent name cs refTypeInherited (Or.inl ⟨h5, rfl⟩)).trans
        (afterSwitch_eq name cs _)⟩
    by_cases h6 : name = "bor".toList ∨ name = "borrowed".toList
    · exact ⟨_, (parseComponents_descent name cs refTypeBorrowed (Or.inr (Or.inl ⟨h6, rfl⟩))).trans
        (afterSwitch_eq name cs _)⟩
    by_cases h7 : name = "der".toList ∨ name = "derived".toList
    · exact ⟨_, (parseComponents_descent name cs refTypeDerived (Or.inr (Or.inr ⟨h7, rfl⟩))).trans
        (afterSwitch_eq name cs _)⟩
    by_cases h8 : name = "m".toList ∨ name = "mention".toList
    · exact ⟨_, parseComponents_mention name cs h8⟩
    · refine ⟨[], parseComponents_other name cs ?_⟩
      simp only [List.mem_cons, List.mem_singleton, not_or, List.not_mem_nil, or_false]
      simp only [not_or] at h1 h2 h3 h4 h5 h6 h7 h8
      tauto

end wiktparse


namespace wiktparse
open referenceType

/-! ## The claims on `parseTemplate` -/

/-- Claim C1. For a template whose positional components are `name :: cs` with
`name` one of `inh`, `inherited`, `bor`, `borrowed`, `der`, `derived`:
`parseTemplate` returns exactly one reference of the kind of the family, with the
third component as language and the fourth as word (the second component and
everything after the fourth are ignored), unless the fourth component is the
placeholder `"-"`, in which case it returns no reference; with fewer than four
components it returns no reference. -/
theorem parseTemplate_descent (template name : GoString) (cs : List GoString)
    (kind : referenceType)
    (hname : ((name = "inh".toList ∨ name = "inherited".toList) ∧ kind = refTypeInherited) ∨
      ((name = "bor".toList ∨ name = "borrowed".toList) ∧ kind = refTypeBorrowed) ∨
      ((name = "der".toList ∨ name = "derived".toList) ∧ kind = refTypeDerived)) :
    templateComponents template = name :: cs →
    parseTemplate template = some
      (match cs with
        | _ :: c2 :: c3 :: _ => if c3 = "-".toList then [] else [⟨kind, ⟨c2, c3⟩⟩]
        | _ => []) := by
  intro hcomp
  unfold parseTemplate parseTemplateBody
  rw [hcomp, parseComponents_descent name cs kind hname, afterSwitch_eq]
  match cs with
  | [] => rfl
  | [_] => rfl
  | [_, _] => rfl
  | _ :: c2 :: c3 :: rest =>
    by_cases h : c3 = ['-'] <;> simp [dropPlaceholders, h]

/-- Witness of claim C1 at `{{inh|en|enm|foo}}`. -/
theorem parseTemplate_descent_witness :
    templateComponents "{{inh|en|enm|foo}}".toList =
        ["inh".toList, "en".toList, "enm".toList, "foo".toList] ∧
      parseTemplate "{{inh|en|enm|foo}}".toList =
        some [⟨refTypeInherited, ⟨"enm".toList, "foo".toList⟩⟩] :=
  ⟨by decide,
    parseTemplate_descent "{{inh|en|enm|foo}}".toList "inh".toList
      ["en".toList, "enm".toList, "foo".toList] refTypeInherited
      (Or.inl ⟨Or.inl rfl, rfl⟩) (by decide)⟩

/-- Claim C2. For a template whose positional components are `name :: cs` with
`name` one of `af`, `affix`, `com`, `compound`: with at least three components
`name, L, c2, ..., cn`, `parseTemplate` returns one `Component` reference with
language `L` for each of `c2 .. cn`, in that order, omitting those whose word is
the placeholder `"-"`; with fewer than three components it returns no reference. -/
theorem parseTemplate_affix (template name : GoString) (cs : List GoString)
    (hname : name = "af".toList ∨ name = "affix".toList ∨ name = "com".toList ∨
      name = "compound".toList) :
    templateComponents template = name :: cs →
    parseTemplate template = some
      (match cs with
        | L :: c2 :: rest =>
          ((c2 :: rest).filter fun w => w ≠ "-".toList).map fun w =>
            (⟨refTypeComponent, ⟨L, w⟩⟩ : reference)
        | _ => []) := by
  intro hcomp
  unfold parseTemplate parseTemplateBody
  rw [hcomp, parseComponents_affix name cs hname]
  match cs with
  | [] => rfl
  | [_] => rfl
  | L :: c2 :: rest =>
    simp only [Option.map_some', dropPlaceholders, List.filter_map]
    rfl

/-- Witness of claim C2 at `{{af|en|un|do|able}}`. -/
theorem parseTemplate_affix_witness :
    templateComponents "{{af|en|un|do|able}}".toList =
        ["af".toList, "en".toList, "un".toList, "do".toList, "able".toList] ∧
      parseTemplate "{{af|en|un|do|able}}".toList =
        some [⟨refTypeComponent, ⟨"en".toList, "un".toList⟩⟩,
              ⟨refTypeComponent, ⟨"en".toList, "do".toList⟩⟩,
              ⟨refTypeComponent, ⟨"en".toList, "able".toList⟩⟩] :=
  ⟨by decide,
    parseTemplate_affix "{{af|en|un|do|able}}".toList "af".toList
      ["en".toList, "un".toList, "do".toList, "able".toList] (Or.inl rfl) (by decide)⟩

/-- Claim C3. For a template whose positional components are `name :: cs` with
`name` one of `pre`, `prefix`: with at least four components `name, L, P, W, ...`
and `P` empty, `parseTemplate` returns no reference; with `P` non-empty it returns
`Prefix(L, P')` followed by `Component(L, W)`, where `P'` is `P` when `P` already
ends with a hyphen and `P` followed by a hyphen otherwise, without the references
whose word is the placeholder `"-"`; with fewer than four components it returns
no reference. -/
theorem parseTemplate_pre (template name : GoString) (cs : List GoString)
    (hname : name = "pre".toList ∨ name = "prefix".toList) :
    templateComponents template = name :: cs →
    parseTemplate template = some
      (match cs with
        | L :: P :: W :: _ =>
          if P = [] then []
          else
            ([⟨refTypePrefix, ⟨L, if P.getLast? = some '-' then P else P ++ "-".toList⟩⟩,
              ⟨refTypeComponent, ⟨L, W⟩⟩] : List reference).filter
              fun r => r.word.word ≠ "-".toList
        | _ => []) := by
  intro hcomp
  unfold parseTemplate parseTemplateBody
  rw [hcomp, parseComponents_pre name cs hname]
  match cs with
  | [] => rfl
  | [_] => rfl
  | [_, _] => rfl
  | L :: P :: W :: rest =>
    by_cases h : P = []
    · simp [h, dropPlaceholders]
    · simp only [h, if_false, Option.map_some', dropPlaceholders]

/-- Witness of claim C3 at `{{pre|en|re|do}}`. -/
theorem parseTemplate_pre_witness :
    templateComponents "{{pre|en|re|do}}".toList =
        ["pre".toList, "en".toList, "re".toList, "do".toList] ∧
      parseTemplate "{{pre|en|re|do}}".toList =
        some [⟨refTypePrefix, ⟨"en".toList, "re-".toList⟩⟩,
              ⟨refTypeComponent, ⟨"en".toList, "do".toList⟩⟩] :=
  ⟨by decide,
    parseTemplate_pre "{{pre|en|re|do}}".toList "pre".toList
      ["en".toList, "re".toList, "do".toList] (Or.inl rfl) (by decide)⟩

/-- Claim C4. For a template whose positional components are `name :: cs` with
`name` one of `suf`, `suffix`: with at least four components `name, L, W, S, ...`
and `S` empty, `parseTemplate` returns no reference; with `S` non-empty it returns
`Component(L, W)` followed by `Suffix(L, S')`, where `S'` is `S` when `S` already
starts with a hyphen and a hyphen followed by `S` otherwise, without the
references whose word is the placeholder `"-"`; with fewer than four components
it returns no reference. -/
theorem parseTemplate_suf (template name : GoString) (cs : List GoString)
    (hname : name = "suf".toList ∨ name = "suffix".toList) :
    templateComponents template = name :: cs →
    parseTemplate template = some
      (match cs with
        | L :: W :: S :: _ =>
          if S = [] then []
          else
            ([⟨refTypeComponent, ⟨L, W⟩⟩,
              ⟨refTypeSuffix, ⟨L, if S.head? = some '-' then S else "-".toList ++ S⟩⟩] :
                List reference).filter
              fun r => r.word.word ≠ "-".toList
        | _ => []) := by
  intro hcomp
  unfold parseTemplate parseTemplateBody
  rw [hcomp, parseComponents_suf name cs hname]
  match cs with
  | [] => rfl
  | [_] => rfl
  | [_, _] => rfl
  | L :: W :: S :: rest =>
    by_cases h : S = []
    · simp [h, dropPlaceholders]
    · simp only [h, if_false, Option.map_some', dropPlaceholders]

/-- Witness of claim C4 at `{{suf|en|do|er}}`. -/
theorem parseTemplate_suf_witness :
    templateComponents "{{suf|en|do|er}}".toList =
        ["suf".toList, "en".toList, "do".toList, "er".toList] ∧
      parseTemplate "{{suf|en|do|er}}".toList =
        some [⟨refTypeComponent, ⟨"en".toList, "do".toList⟩⟩,
              ⟨refTypeSuffix, ⟨"en".toList, "-er".toList⟩⟩] :=
  ⟨by decide,
    parseTemplate_suf "{{suf|en|do|er}}".toList "suf".toList
      ["en".toList, "do".toList, "er".toList] (Or.inl rfl) (by decide)⟩

/-- Claim C5. For a template whose positional components are
`name, L, c2, c3, ..., cLast` (at least four) with `name` one of `con`, `confix`:
if `c2` is empty or the last component is empty, `parseTemplate` returns no
reference; otherwise it returns, in this order, `Prefix(L, c2)` with `c2` made to
end with a hyphen, then `Component(L, c3)` only when there are more than four
components, then `Suffix(L, cLast)` with the last component made to start with a
hyphen, without the references whose word is the placeholder `"-"`. -/
theorem parseTemplate_con (template name L c2 c3 : GoString) (rest : List GoString)
    (hname : name = "con".toList ∨ name = "confix".toList)
    (hcomp : templateComponents template = name :: L :: c2 :: c3 :: rest) :
    parseTemplate template = some
      (if c2 = [] ∨ (c3 :: rest).getLast (List.cons_ne_nil c3 rest) = [] then []
        else
          ([(⟨refTypePrefix,
              ⟨L, if c2.getLast? = some '-' then c2 else c2 ++ "-".toList⟩⟩ : reference)] ++
          (if rest ≠ [] then [(⟨refTypeComponent, ⟨L, c3⟩⟩ : reference)] else []) ++
          [(⟨refTypeSuffix,
              ⟨L, if ((c3 :: rest).getLast (List.cons_ne_nil c3 rest)).head? = some '-'
                then (c3 :: rest).getLast (List.cons_ne_nil c3 rest)
                else "-".toList ++ (c3 :: rest).getLast (List.cons_ne_nil c3 rest)⟩⟩ :
              reference)]).filter fun r => r.word.word ≠ "-".toList) := by
  unfold parseTemplate parseTemplateBody
  rw [hcomp, parseComponents_con name L c2 c3 rest hname]
  by_cases h : c2 = [] ∨ (c3 :: rest).getLast (List.cons_ne_nil c3 rest) = []
  · rw [if_pos h, if_pos h]; rfl
  · rw [if_neg h, if_neg h]; rfl

/-- Witness of claim C5 at `{{con|en|do|er}}`: exactly four components give a
`Prefix` and a `Suffix` and no `Component`. -/
theorem parseTemplate_con_witness :
    templateComponents "{{con|en|do|er}}".toList =
        ["con".toList, "en".toList, "do".toList, "er".toList] ∧
      parseTemplate "{{con|en|do|er}}".toList =
        some [⟨refTypePrefix, ⟨"en".toList, "do-".toList⟩⟩,
              ⟨refTypeSuffix, ⟨"en".toList, "-er".toList⟩⟩] :=
  ⟨by decide,
    parseTemplate_con "{{con|en|do|er}}".toList "con".toList "en".toList "do".toList
      "er".toList [] (Or.inl rfl) (by decide)⟩

/-- Claim C6. For a template whose positional components are `name, L, c2, ...`
(at least three) with `name` one of `m`, `mention`: when `c2` is non-empty and not
the placeholder, `parseTemplate` returns exactly `Derived(L, c2)`; when `c2` is
empty and a fourth component exists and is non-empty, it returns exactly one
`Derived` reference with language `L` whose word is `c2`, the empty string, never
the fourth component; when `c2` is empty and there is no non-empty fourth
component it returns no reference. -/
theorem parseTemplate_mention (template name L c2 : GoString) (rest : List GoString)
    (hname : name = "m".toList ∨ name = "mention".toList) :
    templateComponents template = name :: L :: c2 :: rest →
    parseTemplate template = some
      (if c2 ≠ [] then
          (if c2 = "-".toList then [] else [⟨refTypeDerived, ⟨L, c2⟩⟩])
        else
          match rest with
          | c3 :: _ => if c3 ≠ [] then [⟨refTypeDerived, ⟨L, []⟩⟩] else []
          | [] => []) := by
  intro hcomp
  unfold parseTemplate parseTemplateBody
  rw [hcomp, parseComponents_mention name (L :: c2 :: rest) hname]
  by_cases hc : c2 = []
  · subst hc
    match rest with
    | [] => simp [dropPlaceholders]
    | c3 :: _ => by_cases h3 : c3 = [] <;> simp [dropPlaceholders, h3]
  · by_cases hd : c2 = ['-'] <;> simp [dropPlaceholders, hc, hd]

/-- Witness of claim C6 at `{{m|en||foo}}`: the emptiness test falls back to the
fourth component, the emitted word is the empty third one. -/
theorem parseTemplate_mention_witness :
    templateComponents "{{m|en||foo}}".toList =
        ["m".toList, "en".toList, [], "foo".toList] ∧
      parseTemplate "{{m|en||foo}}".toList =
        some [⟨refTypeDerived, ⟨"en".toList, []⟩⟩] :=
  ⟨by decide,
    parseTemplate_mention "{{m|en||foo}}".toList "m".toList "en".toList []
      ["foo".toList] (Or.inl rfl) (by decide)⟩

/-- Claim C7. For every input string, whatever the template family: no reference
returned by `parseTemplate` has the placeholder `"-"` as its word, and the
references the family produced with any other word are all kept, in their
original order: the result is the produced list without its placeholder
references. For example `{{pre|en|-|do}}` gives only `Component(en, do)`. -/
theorem parseTemplate_placeholder_filter (template : GoString) :
    (∃ produced refs, parseTemplateBody template = some produced ∧
      parseTemplate template = some refs ∧
      (∀ r ∈ refs, r.word.word ≠ "-".toList) ∧
      refs = produced.filter (fun r => r.word.word ≠ "-".toList) ∧
      refs.Sublist produced ∧
      (∀ r ∈ produced, r.word.word ≠ "-".toList → r ∈ refs)) ∧
    parseTemplateBody "{{pre|en|-|do}}".toList =
      some [⟨refTypePrefix, ⟨"en".toList, "-".toList⟩⟩,
            ⟨refTypeComponent, ⟨"en".toList, "do".toList⟩⟩] ∧
    parseTemplate "{{pre|en|-|do}}".toList =
      some [⟨refTypeComponent, ⟨"en".toList, "do".toList⟩⟩] := by
  refine ⟨?_, by decide, by decide⟩
  obtain ⟨produced, hp⟩ := parseComponents_isSome (templateComponents template)
  refine ⟨produced, dropPlaceholders produced, hp, ?_, ?_, rfl, ?_, ?_⟩
  · unfold parseTemplate parseTemplateBody
    rw [hp]; rfl
  · intro r hr
    have := (List.mem_filter.mp hr).2
    simpa using this
  · exact List.filter_sublist _
  · intro r hr hw
    exact List.mem_filter.mpr ⟨hr, by simpa using hw⟩

/-- Claim C8. The function `parseTemplate` is total: for every input string it
returns a possibly empty list, no component index and no first or last character
index it reads is out of range. In particular it returns on the empty string, on
strings of only braces or pipes and on templates with too few or empty
components. -/
theorem parseTemplate_total (template : GoString) :
    (∃ refs, parseTemplate template = some refs) ∧
    parseTemplate [] = some [] ∧
    parseTemplate "{{}}".toList = some [] ∧
    parseTemplate "|||".toList = some [] ∧
    parseTemplate "{{pre|en}}".toList = some [] ∧
    parseTemplate "{{pre|en||do}}".toList = some [] ∧
    parseTemplate "{{con|en|a|}}".toList = some [] := by
  refine ⟨?_, by decide, by decide, by decide, by decide, by decide, by decide⟩
  obtain ⟨produced, hp⟩ := parseComponents_isSome (templateComponents template)
  exact ⟨dropPlaceholders produced, by unfold parseTemplate parseTemplateBody; rw [hp]; rfl⟩

end wiktparse


namespace wiktparse
open referenceType

/-! ## The deduplicator -/

theorem firstOccurrences_filter (p : reference → Bool) (l : List reference) :
    firstOccurrences (l.filter p) = (firstOccurrences l).filter p := by
  induction l with
  | nil => rfl
  | cons r rs ih =>
    by_cases hp : p r = true
    · rw [List.filter_cons_of_pos hp]
      simp only [firstOccurrences]
      rw [List.filter_cons_of_pos hp, ih, List.filter_filter, List.filter_filter]
      congr 1
      apply List.filter_congr
      intro x _
      exact Bool.and_comm _ _
    · rw [List.filter_cons_of_neg hp]
      simp only [firstOccurrences]
      rw [List.filter_cons_of_neg hp, ih, List.filter_filter]
      apply List.filter_congr
      intro x _
      by_cases hx : x = r
      · subst hx; simp [hp]
      · simp [hx]

theorem uniqueOuter_eq (n : Nat) (back front : List reference) (hn : back.length ≤ n) :
    uniqueOuter (front ++ back) front.length = some (front ++ firstOccurrences back) := by
  induction n generalizing back front with
  | zero =>
    have : back = [] := List.length_eq_zero.mp (Nat.le_zero.mp hn)
    subst this
    rw [uniqueOuter]
    simp [firstOccurrences]
  | succ n ih =>
    match back, hn with
    | [], _ =>
      rw [uniqueOuter]
      simp [firstOccurrences]
    | r :: rs, hn =>
      have hi : front.length < (front ++ r :: rs).length := by simp
      have hget : goIndex (front ++ [r]) front.length = some r := by
        unfold goIndex
        rw [List.get?_eq_getElem?, List.getElem?_append_right (Nat.le_refl _)]
        simp
      have hrun := uniqueInner_eq front.length r rs (front ++ [r]) hget
      simp only [List.append_assoc, List.singleton_append, List.length_append,
        List.length_singleton] at hrun
      rw [uniqueOuter, if_pos hi]
      split
      · rename_i refs2 h2
        rw [hrun] at h2
        cases h2
        have hlen : (rs.filter fun b => decide (b ≠ r)).length ≤ n := by
          have := List.length_filter_le (fun b => decide (b ≠ r)) rs
          simp only [List.length_cons] at hn
          omega
        have := ih (rs.filter fun b => decide (b ≠ r)) (front ++ [r]) hlen
        simp only [List.append_assoc, List.singleton_append, List.length_append,
          List.length_singleton] at this
        rw [this, firstOccurrences_filter]
        simp [firstOccurrences]
      · rename_i h2
        rw [hrun] at h2
        exact Option.noConfusion h2

theorem unique_eq (refs : List reference) : unique refs = some (firstOccurrences refs) := by
  have := uniqueOuter_eq refs.length refs [] (Nat.le_refl _)
  simpa [unique] using this

theorem mem_firstOccurrences (l : List reference) (x : reference) :
    x ∈ firstOccurrences l ↔ x ∈ l := by
  induction l with
  | nil => simp [firstOccurrences]
  | cons r rs ih =>
    simp only [firstOccurrences, List.mem_cons, List.mem_filter, ih]
    by_cases hx : x = r
    · simp [hx]
    · simp [hx]

theorem nodup_firstOccurrences (l : List reference) : (firstOccurrences l).Nodup := by
  induction l with
  | nil => simp [firstOccurrences]
  | cons r rs ih =>
    simp only [firstOccurrences]
    refine List.nodup_cons.mpr ⟨?_, ih.filter _⟩
    intro hmem
    have := (List.mem_filter.mp hmem).2
    simp at this

theorem firstOccurrences_sublist (l : List reference) : (firstOccurrences l).Sublist l := by
  induction l with
  | nil => simp [firstOccurrences]
  | cons r rs ih =>
    simp only [firstOccurrences]
    exact ((List.filter_sublist _).trans ih).cons₂ r

/-- Filtering keeps the relative position of the elements it keeps. -/
theorem indexOf_filter_lt (p : reference → Bool) (l : List reference) (a b : reference)
    (ha : a ∈ l) (hb : b ∈ l) (hpa : p a = true) (hpb : p b = true) :
    ((l.filter p).indexOf a < (l.filter p).indexOf b ↔ l.indexOf a < l.indexOf b) := by
  induction l with
  | nil => simp at ha
  | cons y ys ih =>
    by_cases hay : y = a
    · subst hay
      rw [List.filter_cons_of_pos hpa, List.indexOf_cons_self, List.indexOf_cons_self]
      by_cases hby : y = b
      · subst hby
        simp
      · rw [List.indexOf_cons_ne _ hby, List.indexOf_cons_ne _ hby]
        simp
    · by_cases hby : y = b
      · subst hby
        rw [List.filter_cons_of_pos hpb, List.indexOf_cons_self, List.indexOf_cons_self]
        simp
      · have ha2 : a ∈ ys := by
          rcases List.mem_cons.mp ha with h | h
          · exact absurd h.symm hay
          · exact h
        have hb2 : b ∈ ys := by
          rcases List.mem_cons.mp hb with h | h
          · exact absurd h.symm hby
          · exact h
        rw [List.indexOf_cons_ne _ hay, List.indexOf_cons_ne _ hby]
        by_cases hpy : p y = true
        · rw [List.filter_cons_of_pos hpy, List.indexOf_cons_ne _ hay,
            List.indexOf_cons_ne _ hby]
          simpa using ih ha2 hb2
        · rw [List.filter_cons_of_neg hpy]
          simpa using ih ha2 hb2

theorem indexOf_firstOccurrences_lt (l : List reference) (a b : reference)
    (ha : a ∈ l) (hb : b ∈ l) :
    ((firstOccurrences l).indexOf a < (firstOccurrences l).indexOf b ↔
      l.indexOf a < l.indexOf b) := by
  induction l with
  | nil => simp at ha
  | cons y ys ih =>
    simp only [firstOccurrences]
    by_cases hay : y = a
    · subst hay
      rw [List.indexOf_cons_self, List.indexOf_cons_self]
      by_cases hby : y = b
      · subst hby
        simp
      · rw [List.indexOf_cons_ne _ hby, List.indexOf_cons_ne _ hby]
        simp
    · by_cases hby : y = b
      · subst hby
        rw [List.indexOf_cons_self, List.indexOf_cons_self]
        simp
      · have ha2 : a ∈ ys := by
          rcases List.mem_cons.mp ha with h | h
          · exact absurd h.symm hay
          · exact h
        have hb2 : b ∈ ys := by
          rcases List.mem_cons.mp hb with h | h
          · exact absurd h.symm hby
          · exact h
        rw [List.indexOf_cons_ne _ hay, List.indexOf_cons_ne _ hby,
          List.indexOf_cons_ne _ hay, List.indexOf_cons_ne _ hby]
        have hpa : (fun x => decide (x ≠ y)) a = true := by
          simpa using fun h => hay h.symm
        have hpb : (fun x => decide (x ≠ y)) b = true := by
          simpa using fun h => hby h.symm
        have hf := indexOf_filter_lt (fun x => decide (x ≠ y)) (firstOccurrences ys) a b
          ((mem_firstOccurrences ys a).mpr ha2) ((mem_firstOccurrences ys b).mpr hb2) hpa hpb
        have hi := ih ha2 hb2
        simp only [Nat.succ_lt_succ_iff]
        exact hf.trans hi

/-- Claim C9. For every list of references `unique` returns the list of its
distinct elements in order of first occurrence: every element of the input
occurs exactly once in the result, nothing else occurs, the result is a sublist
of the input and two elements stand in the result in the order of their first
occurrences in the input. This holds also when three or more equal references
are adjacent; for example `[A, B, A, C, B]` gives `[A, B, C]` and `[A, A, A, B]`
gives `[A, B]`. -/
theorem unique_first_occurrences (refs : List reference) :
    (∃ out, unique refs = some out ∧
      (∀ r ∈ refs, out.count r = 1) ∧
      (∀ r ∈ out, r ∈ refs) ∧
      out.Nodup ∧
      out.Sublist refs ∧
      (∀ a ∈ refs, ∀ b ∈ refs,
        (out.indexOf a < out.indexOf b ↔ refs.indexOf a < refs.indexOf b))) ∧
    unique [⟨refTypeDerived, ⟨"la".toList, "a".toList⟩⟩,
        ⟨refTypeBorrowed, ⟨"fr".toList, "b".toList⟩⟩,
        ⟨refTypeDerived, ⟨"la".toList, "a".toList⟩⟩,
        ⟨refTypeInherited, ⟨"enm".toList, "c".toList⟩⟩,
        ⟨refTypeBorrowed, ⟨"fr".toList, "b".toList⟩⟩] =
      some [⟨refTypeDerived, ⟨"la".toList, "a".toList⟩⟩,
        ⟨refTypeBorrowed, ⟨"fr".toList, "b".toList⟩⟩,
        ⟨refTypeInherited, ⟨"enm".toList, "c".toList⟩⟩] ∧
    unique [⟨refTypeDerived, ⟨"la".toList, "a".toList⟩⟩,
        ⟨refTypeDerived, ⟨"la".toList, "a".toList⟩⟩,
        ⟨refTypeDerived, ⟨"la".toList, "a".toList⟩⟩,
        ⟨refTypeBorrowed, ⟨"fr".toList, "b".toList⟩⟩] =
      some [⟨refTypeDerived, ⟨"la".toList, "a".toList⟩⟩,
        ⟨refTypeBorrowed, ⟨"fr".toList, "b".toList⟩⟩] := by
  refine ⟨⟨firstOccurrences refs, unique_eq refs, ?_, ?_, nodup_firstOccurrences refs,
    firstOccurrences_sublist refs, ?_⟩, ?_, ?_⟩
  · intro r hr
    exact List.count_eq_one_of_mem (nodup_firstOccurrences refs)
      ((mem_firstOccurrences refs r).mpr hr)
  · intro r hr
    exact (mem_firstOccurrences refs r).mp hr
  · intro a ha b hb
    exact indexOf_firstOccurrences_lt refs a b ha hb
  · rw [unique_eq]; decide
  · rw [unique_eq]; decide

end wiktparse


namespace regexp

/-! ## The patterns and their matches -/

theorem matchDelimited_sound (opening : GoString) (stop : Char) (closing t : GoString)
    (k : Nat) (h : matchDelimited opening stop closing t = some k) :
    ∃ body post, t = opening ++ body ++ closing ++ post ∧ stop ∉ body := by
  unfold matchDelimited at h
  by_cases h1 : opening.isPrefixOf t = true
  · rw [if_pos h1] at h
    by_cases h2 : closing.isPrefixOf
        ((t.drop opening.length).dropWhile fun c => decide (c ≠ stop)) = true
    · obtain ⟨u, hu⟩ := List.isPrefixOf_iff_prefix.mp h1
      obtain ⟨post, hpost⟩ := List.isPrefixOf_iff_prefix.mp h2
      refine ⟨(t.drop opening.length).takeWhile fun c => decide (c ≠ stop), post, ?_, ?_⟩
      · have hsplit := List.takeWhile_append_dropWhile (fun c => decide (c ≠ stop))
          (t.drop opening.length)
        rw [← hpost] at hsplit
        have hdrop : t.drop opening.length = u := by
          rw [← hu]; simp
        calc t = opening ++ t.drop opening.length := by rw [hdrop, hu]
          _ = opening ++ ((t.drop opening.length).takeWhile (fun c => decide (c ≠ stop)) ++
                (closing ++ post)) := by rw [hsplit]
          _ = _ := by simp [List.append_assoc]
      · intro hmem
        have := List.mem_takeWhile_imp hmem
        simp at this
    · rw [if_neg h2] at h
      exact Option.noConfusion h
  · rw [if_neg h1] at h
    exact Option.noConfusion h

theorem matchDelimited_complete (opening : GoString) (stop : Char)
    (closing body post : GoString) (hbody : stop ∉ body) :
    matchDelimited opening stop (stop :: closing)
        (opening ++ body ++ (stop :: closing) ++ post) =
      some (opening.length + body.length + (closing.length + 1)) := by
  unfold matchDelimited
  have h1 : opening.isPrefixOf (opening ++ body ++ (stop :: closing) ++ post) = true := by
    rw [List.isPrefixOf_iff_prefix]
    exact ⟨body ++ (stop :: closing) ++ post, by simp [List.append_assoc]⟩
  have hdrop : (opening ++ body ++ (stop :: closing) ++ post).drop opening.length =
      body ++ ((stop :: closing) ++ post) := by
    simp [List.append_assoc]
  have hall : ∀ c ∈ body, (fun c => decide (c ≠ stop)) c = true := by
    intro c hc
    have : c ≠ stop := fun h => hbody (h ▸ hc)
    simpa using this
  have htake : (body ++ ((stop :: closing) ++ post)).takeWhile (fun c => decide (c ≠ stop)) =
      body := by
    rw [List.takeWhile_append_of_pos hall]
    simp
  have hdw : (body ++ ((stop :: closing) ++ post)).dropWhile (fun c => decide (c ≠ stop)) =
      (stop :: closing) ++ post := by
    rw [List.dropWhile_append_of_pos hall]
    simp
  rw [if_pos h1, hdrop, htake, hdw]
  have h2 : (stop :: closing).isPrefixOf ((stop :: closing) ++ post) = true := by
    rw [List.isPrefixOf_iff_prefix]
    exact ⟨post, rfl⟩
  rw [if_pos h2]
  simp

theorem replaceAllGo_of_no_match (re : GoString → Option Nat) (s : GoString)
    (h : ∀ t, t <:+ s → re t = none) : replaceAllGo re 0 s = s := by
  induction s with
  | nil => rfl
  | cons c cs ih =>
    have hc := h (c :: cs) (List.suffix_refl _)
    simp only [replaceAllGo, hc]
    rw [ih fun t ht => h t (ht.trans (List.suffix_cons c cs))]

theorem findAllGo_of_no_match (re : GoString → Option Nat) (s : GoString)
    (h : ∀ t, t <:+ s → re t = none) : findAllGo re 0 s = [] := by
  induction s with
  | nil => rfl
  | cons c cs ih =>
    have hc := h (c :: cs) (List.suffix_refl _)
    simp only [findAllGo, hc]
    exact ih fun t ht => h t (ht.trans (List.suffix_cons c cs))

/-- A text without a span has no match of the pattern at any of its positions. -/
theorem no_match_of_not_containsSpan (opening : GoString) (stop : Char)
    (closing s : GoString) (h : ¬ containsSpan opening stop closing s) :
    ∀ t, t <:+ s → matchDelimited opening stop closing t = none := by
  intro t ht
  cases hm : matchDelimited opening stop closing t with
  | none => rfl
  | some k =>
    exfalso
    obtain ⟨body, post, heq, hbody⟩ := matchDelimited_sound opening stop closing t k hm
    obtain ⟨pre, hpre⟩ := ht
    exact h ⟨pre, body, post, by rw [← hpre, heq]; simp [List.append_assoc], hbody⟩

/-- A part of a text without a span has no span. -/
theorem not_containsSpan_of_infix (opening : GoString) (stop : Char)
    (closing s part : GoString) (hpart : part <:+: s)
    (h : ¬ containsSpan opening stop closing s) : ¬ containsSpan opening stop closing part := by
  rintro ⟨pre, body, post, heq, hbody⟩
  obtain ⟨a, b, hab⟩ := hpart
  exact h ⟨a ++ pre, body, post ++ b, by rw [← hab, heq]; simp [List.append_assoc], hbody⟩

end regexp


namespace regexp

/-- A pattern whose opening extends `opening` by characters other than `stop`
matches nowhere in a text without a span of `opening`. -/
theorem no_match_of_longer_opening (opening extra : GoString) (stop : Char)
    (closing s : GoString) (hextra : stop ∉ extra)
    (h : ¬ containsSpan opening stop closing s) :
    ∀ t, t <:+ s → matchDelimited (opening ++ extra) stop closing t = none := by
  intro t ht
  cases hm : matchDelimited (opening ++ extra) stop closing t with
  | none => rfl
  | some k =>
    exfalso
    obtain ⟨body, post, heq, hbody⟩ :=
      matchDelimited_sound (opening ++ extra) stop closing t k hm
    obtain ⟨pre, hpre⟩ := ht
    refine h ⟨pre, extra ++ body, post, by rw [← hpre, heq]; simp [List.append_assoc], ?_⟩
    intro hmem
    rcases List.mem_append.mp hmem with h1 | h1
    · exact hextra h1
    · exact hbody h1

/-- A span in a text is a match of the pattern at one of its positions. -/
theorem match_of_containsSpan (opening : GoString) (stop : Char) (closing s : GoString)
    (h : containsSpan opening stop (stop :: closing) s) :
    ∃ n, n < s.length + 1 ∧
      (matchDelimited opening stop (stop :: closing) (s.drop n)).isSome = true := by
  obtain ⟨pre, body, post, heq, hbody⟩ := h
  refine ⟨pre.length, ?_, ?_⟩
  · rw [heq]; simp only [List.length_append]; omega
  · have hdrop : s.drop pre.length = opening ++ body ++ (stop :: closing) ++ post := by
      rw [heq]; simp [List.append_assoc]
    rw [hdrop, matchDelimited_complete opening stop closing body post hbody]
    rfl

end regexp

namespace wiktparse
open referenceType

/-! ## The section locator -/

/-- The scan keeps the start index within the text, and it either leaves the end
index as it was or sets it to the position before a character of the text that
lies at or after the start index. -/
theorem scanLoop_bounds (cs : GoString) (i : Int) (st : scanState)
    (h0 : 0 ≤ st.startIndex) (h1 : st.startIndex ≤ i) :
    0 ≤ (scanLoop cs i st).startIndex ∧
    (scanLoop cs i st).startIndex ≤ i + cs.length ∧
    ((scanLoop cs i st).endIndex = st.endIndex ∨
      ((scanLoop cs i st).startIndex ≤ (scanLoop cs i st).endIndex + 1 ∧
        (scanLoop cs i st).endIndex + 1 < i + cs.length)) := by
  induction cs generalizing i st with
  | nil => simp [scanLoop, h0, h1]
  | cons c cs ih =>
    have hlen : (((c :: cs).length : Nat) : Int) = (cs.length : Int) + 1 := by
      simp
    rw [hlen]
    unfold scanLoop
    split_ifs with hc1 hc2 hc3 hc4 hc5
    · have := ih (i + 1)
        { st with templateCount := st.templateCount + 1, containedTemplate := true }
        h0 (by show st.startIndex ≤ i + 1; omega)
      simp only at this ⊢
      omega
    · have := ih (i + 1) { st with templateCount := st.templateCount - 1 }
        h0 (by show st.startIndex ≤ i + 1; omega)
      simp only at this ⊢
      omega
    · simp only
      omega
    · have := ih (i + 1) { st with startIndex := i } (by show 0 ≤ i; omega)
        (by show i ≤ i + 1; omega)
      simp only at this ⊢
      omega
    · have := ih (i + 1) st h0 (by omega)
      omega
    · have := ih (i + 1) st h0 (by omega)
      omega

end wiktparse


namespace wiktparse
open referenceType

theorem goSlice_infix {α : Type} (xs part : List α) (lo hi : Int)
    (h : goSlice xs lo hi = some part) : part <:+: xs := by
  unfold goSlice at h
  split_ifs at h
  cases h
  exact (List.drop_suffix _ _).isInfix.trans (List.take_prefix _ _).isInfix

/-- Counterexample to claim C10 as stated: the text `{{inh|en|enm|foo}(x)}` contains
no template (its two closing braces are not adjacent), yet `parseEtymologySection`
returns one reference, because the parenthesised aside is removed before the
templates are searched, which joins the braces. -/
theorem parseEtymologySection_no_template_counterexample :
    ¬ regexp.containsSpan "\x7b\x7b".toList '}' "\x7d\x7d".toList
        "{{inh|en|enm|foo}(x)}".toList ∧
      parseEtymologySection "{{inh|en|enm|foo}(x)}".toList =
        some [⟨refTypeInherited, ⟨"enm".toList, "foo".toList⟩⟩] := by
  refine ⟨?_, by decide⟩
  intro h
  obtain ⟨n, hn, hm⟩ := regexp.match_of_containsSpan "\x7b\x7b".toList '}' "\x7d".toList
    "{{inh|en|enm|foo}(x)}".toList h
  have hall : ∀ n, n < "{{inh|en|enm|foo}(x)}".toList.length + 1 →
      (regexp.matchDelimited "\x7b\x7b".toList '}' ('}' :: "\x7d".toList)
        ("{{inh|en|enm|foo}(x)}".toList.drop n)).isSome = false := by
    decide
  rw [hall n hn] at hm
  exact Bool.noConfusion hm

/-- Claim C10, amended. For every section text that contains no template anywhere
(no `{{`, then characters other than `}`, then `}}`) and no parenthesised aside
(no `(`, then characters other than `)`, then `)`), `parseEtymologySection`
returns no references, whatever else the text contains. -/
theorem parseEtymologySection_no_template (text : GoString)
    (htemplate : ¬ regexp.containsSpan "\x7b\x7b".toList '}' "\x7d\x7d".toList text)
    (hparen : ¬ regexp.containsSpan "(".toList ')' ")".toList text) :
    parseEtymologySection text = some [] := by
  have hroot : regexp.ReplaceAllString rootTemplateRegex text = text :=
    regexp.replaceAllGo_of_no_match _ _
      (regexp.no_match_of_longer_opening "\x7b\x7b".toList "root".toList '}'
        "\x7d\x7d".toList text (by decide) htemplate)
  have himg : regexp.ReplaceAllString imgTemplateRegex text = text :=
    regexp.replaceAllGo_of_no_match _ _
      (regexp.no_match_of_longer_opening "\x7b\x7b".toList "multiple".toList '}'
        "\x7d\x7d".toList text (by decide) htemplate)
  unfold parseEtymologySection
  simp only [hroot, himg]
  obtain ⟨hb0, hb1, hb2⟩ := scanLoop_bounds text 0 ⟨0, 0, (text.length : Int) - 1, false⟩
    (le_refl _) (le_refl _)
  generalize scanLoop text 0 ⟨0, 0, (text.length : Int) - 1, false⟩ = st at hb0 hb1 hb2
  simp only at hb2
  split_ifs with h1 h2
  · rfl
  · rfl
  · have hbounds : 0 ≤ st.startIndex ∧ st.startIndex ≤ st.endIndex + 1 ∧
        st.endIndex + 1 ≤ (text.length : Int) := by
      rcases hb2 with h | ⟨h, h'⟩ <;> omega
    have hslice : goSlice text st.startIndex (st.endIndex + 1) =
        some ((text.take (st.endIndex + 1).toNat).drop st.startIndex.toNat) := by
      unfold goSlice
      rw [if_pos hbounds]
    rw [hslice]
    have hinfix := goSlice_infix _ _ _ _ hslice
    generalize (text.take (st.endIndex + 1).toNat).drop st.startIndex.toNat = part at hinfix
    have hp : regexp.ReplaceAllString withinParenRegex part = part :=
      regexp.replaceAllGo_of_no_match _ _
        (regexp.no_match_of_not_containsSpan _ _ _ _
          (regexp.not_containsSpan_of_infix _ _ _ _ _ hinfix hparen))
    have hf : regexp.FindAllString templatesRegex part = [] :=
      regexp.findAllGo_of_no_match _ _
        (regexp.no_match_of_not_containsSpan _ _ _ _
          (regexp.not_containsSpan_of_infix _ _ _ _ _ hinfix htemplate))
    simp only [Option.some_bind, hp, hf]
    rfl

/-- Witness of the amended claim C10 at `see {x}, perhaps`: the text has no
template and no parenthesised aside. -/
theorem parseEtymologySection_no_template_witness :
    parseEtymologySection "see {x}, perhaps".toList = some [] :=
  parseEtymologySection_no_template "see {x}, perhaps".toList
    (by
      intro h
      obtain ⟨n, hn, hm⟩ := regexp.match_of_containsSpan "\x7b\x7b".toList '}'
        "\x7d".toList "see {x}, perhaps".toList h
      have hall : ∀ n, n < "see {x}, perhaps".toList.length + 1 →
          (regexp.matchDelimited "\x7b\x7b".toList '}' ('}' :: "\x7d".toList)
            ("see {x}, perhaps".toList.drop n)).isSome = false := by
        decide
      rw [hall n hn] at hm
      exact Bool.noConfusion hm)
    (by
      intro h
      obtain ⟨n, hn, hm⟩ := regexp.match_of_containsSpan "(".toList ')' []
        "see {x}, perhaps".toList h
      have hall : ∀ n, n < "see {x}, perhaps".toList.length + 1 →
          (regexp.matchDelimited "(".toList ')' [')']
            ("see {x}, perhaps".toList.drop n)).isSome = false := by
        decide
      rw [hall n hn] at hm
      exact Bool.noConfusion hm)

end wiktparse

namespace wiktparse
open referenceType

/-! ## Empty words -/

/-- Counterexample to claim C18 as stated: the descent, affix and `pre` families
do not test their word argument, so `{{inh|en|enm|}}`, `{{af|en||do}}` and
`{{pre|en|re|}}` each give a reference whose word is the empty string. -/
theorem parseTemplate_empty_word_counterexample :
    parseTemplate "{{inh|en|enm|}}".toList =
        some [⟨refTypeInherited, ⟨"enm".toList, []⟩⟩] ∧
      parseTemplate "{{af|en||do}}".toList =
        some [⟨refTypeComponent, ⟨"en".toList, []⟩⟩,
              ⟨refTypeComponent, ⟨"en".toList, "do".toList⟩⟩] ∧
      parseTemplate "{{pre|en|re|}}".toList =
        some [⟨refTypePrefix, ⟨"en".toList, "re-".toList⟩⟩,
              ⟨refTypeComponent, ⟨"en".toList, []⟩⟩] := by
  refine ⟨by decide, by decide, by decide⟩

/-- The references of the switch that carry a hyphen never have an empty word. -/
theorem parseComponents_hyphen_word (components : List GoString) (refs : List reference)
    (h : parseComponents components = some refs) :
    ∀ r ∈ refs, r.refType = refTypePrefix ∨ r.refType = refTypeSuffix → r.word.word ≠ [] := by
  match components with
  | [] =>
    simp [parseComponents] at h
    subst h
    simp
  | name :: cs =>
    by_cases h1 : name = "af".toList ∨ name = "affix".toList ∨ name = "com".toList ∨
        name = "compound".toList
    · rw [parseComponents_affix name cs h1] at h
      cases h
      match cs with
      | [] => simp
      | [_] => simp
      | L :: c2 :: rest =>
        intro r hr hk
        simp only [List.mem_map] at hr
        obtain ⟨w, _, rfl⟩ := hr
        rcases hk with hk | hk <;> cases hk
    by_cases h2 : name = "pre".toList ∨ name = "prefix".toList
    · rw [parseComponents_pre name cs h2] at h
      cases h
      match cs with
      | [] => simp
      | [_] => simp
      | [_, _] => simp
      | L :: P :: W :: rest =>
        by_cases hP : P = []
        · simp [hP]
        · intro r hr hk
          simp only [hP, if_false, List.mem_cons, List.mem_singleton, List.not_mem_nil,
            or_false] at hr
          rcases hr with rfl | rfl
          · simp only
            split_ifs
            · exact hP
            · simp
          · rcases hk with hk | hk <;> cases hk
    by_cases h3 : name = "suf".toList ∨ name = "suffix".toList
    · rw [parseComponents_suf name cs h3] at h
      cases h
      match cs with
      | [] => simp
      | [_] => simp
      | [_, _] => simp
      | L :: W :: S :: rest =>
        by_cases hS : S = []
        · simp [hS]
        · intro r hr hk
          simp only [hS, if_false, List.mem_cons, List.mem_singleton, List.not_mem_nil,
            or_false] at hr
          rcases hr with rfl | rfl
          · rcases hk with hk | hk <;> cases hk
          · simp only
            split_ifs
            · exact hS
            · simp
    by_cases h4 : name = "con".toList ∨ name = "confix".toList
    · match cs with
      | [] =>
        rcases h4 with hn | hn <;> subst hn <;>
          simp [parseComponents, goIndex_zero_cons] at h <;> subst h <;> simp
      | [_] =>
        rcases h4 with hn | hn <;> subst hn <;>
          simp [parseComponents, goIndex_zero_cons] at h <;> subst h <;> simp
      | [_, _] =>
        rcases h4 with hn | hn <;> subst hn <;>
          simp [parseComponents, goIndex_zero_cons] at h <;> subst h <;> simp
      | L :: c2 :: c3 :: rest =>
        rw [parseComponents_con name L c2 c3 rest h4] at h
        by_cases hc : c2 = [] ∨ (c3 :: rest).getLast (List.cons_ne_nil c3 rest) = []
        · rw [if_pos hc] at h
          cases h
          simp
        · rw [if_neg hc] at h
          cases h
          rw [not_or] at hc
          intro r hr hk
          simp only [List.mem_append, List.mem_singleton] at hr
          rcases hr with (rfl | hr) | rfl
          · simp only
            split_ifs
            · exact hc.1
            · simp
          · split_ifs at hr
            · simp only [List.mem_singleton] at hr
              subst hr
              rcases hk with hk | hk <;> cases hk
            · simp at hr
          · simp only
            split_ifs
            · exact hc.2
            · simp
    by_cases h5 : name = "inh".toList ∨ name = "inherited".toList
    · rw [parseComponents_descent name cs refTypeInherited (Or.inl ⟨h5, rfl⟩),
        afterSwitch_eq] at h
      cases h
      intro r hr hk
      match cs, hr with
      | [], hr => simp at hr
      | [_], hr => simp at hr
      | [_, _], hr => simp at hr
      | _ :: c2 :: c3 :: rest, hr =>
        simp only [List.mem_singleton] at hr
        subst hr
        rcases hk with hk | hk <;> cases hk
    by_cases h6 : name = "bor".toList ∨ name = "borrowed".toList
    · rw [parseComponents_descent name cs refTypeBorrowed (Or.inr (Or.inl ⟨h6, rfl⟩)),
        afterSwitch_eq] at h
      cases h
      intro r hr hk
      match cs, hr with
      | [], hr => simp at hr
      | [_], hr => simp at hr
      | [_, _], hr => simp at hr
      | _ :: c2 :: c3 :: rest, hr =>
        simp only [List.mem_singleton] at hr
        subst hr
        rcases hk with hk | hk <;> cases hk
    by_cases h7 : name = "der".toList ∨ name = "derived".toList
    · rw [parseComponents_descent name cs refTypeDerived (Or.inr (Or.inr ⟨h7, rfl⟩)),
        afterSwitch_eq] at h
      cases h
      intro r hr hk
      match cs, hr with
      | [], hr => simp at hr
      | [_], hr => simp at hr
      | [_, _], hr => simp at hr
      | _ :: c2 :: c3 :: rest, hr =>
        simp only [List.mem_singleton] at hr
        subst hr
        rcases hk with hk | hk <;> cases hk
    by_cases h8 : name = "m".toList ∨ name = "mention".toList
    · rw [parseComponents_mention name cs h8] at h
      cases h
      intro r hr hk
      match cs, hr with
      | [], hr => simp at hr
      | [_], hr => simp at hr
      | L :: c2 :: rest, hr =>
        simp only at hr
        split_ifs at hr
        · simp only [List.mem_singleton] at hr
          subst hr
          rcases hk with hk | hk <;> cases hk
        · match rest, hr with
          | [], hr => simp at hr
          | c3 :: _, hr =>
            simp only at hr
            split_ifs at hr
            · simp only [List.mem_singleton] at hr
              subst hr
              rcases hk with hk | hk <;> cases hk
            · simp at hr
    · have hother : parseComponents (name :: cs) = some [] := by
        apply parseComponents_other
        simp only [List.mem_cons, List.mem_singleton, not_or, List.not_mem_nil, or_false]
        simp only [not_or] at h1 h2 h3 h4 h5 h6 h7 h8
        tauto
      rw [hother] at h
      cases h
      simp

/-- Claim C18, amended. Empty hyphen-bearing arguments are handled by skipping
the template: for every template string, `parseTemplate` returns a list in which
no `Prefix` and no `Suffix` reference has the empty string as its word (a `pre`,
`suf` or `con` template whose prefix or suffix argument is empty yields no
reference at all). -/
theorem parseTemplate_hyphen_word_nonempty (template : GoString) :
    (∃ refs, parseTemplate template = some refs ∧
      ∀ r ∈ refs, r.refType = refTypePrefix ∨ r.refType = refTypeSuffix → r.word.word ≠ []) ∧
    parseTemplate "{{pre|en||do}}".toList = some [] ∧
    parseTemplate "{{suf|en|do|}}".toList = some [] ∧
    parseTemplate "{{con|en||er}}".toList = some [] ∧
    parseTemplate "{{con|en|do|}}".toList = some [] := by
  refine ⟨?_, by decide, by decide, by decide, by decide⟩
  obtain ⟨produced, hp⟩ := parseComponents_isSome (templateComponents template)
  refine ⟨dropPlaceholders produced, by unfold parseTemplate parseTemplateBody; rw [hp]; rfl,
    ?_⟩
  intro r hr hk
  exact parseComponents_hyphen_word _ _ hp r (List.mem_of_mem_filter hr) hk

end wiktparse

namespace regexp

/-! ## Lengths of matches and of replaced texts -/

theorem matchDelimited_length (opening : GoString) (stop : Char) (closing t : GoString)
    (k : Nat) (h : matchDelimited opening stop closing t = some k) :
    opening.length + closing.length ≤ k ∧ k ≤ t.length := by
  unfold matchDelimited at h
  by_cases h1 : opening.isPrefixOf t = true
  · rw [if_pos h1] at h
    by_cases h2 : closing.isPrefixOf
        ((t.drop opening.length).dropWhile fun c => decide (c ≠ stop)) = true
    · rw [if_pos h2] at h
      cases h
      obtain ⟨u, hu⟩ := List.isPrefixOf_iff_prefix.mp h1
      obtain ⟨post, hpost⟩ := List.isPrefixOf_iff_prefix.mp h2
      have hsplit := List.takeWhile_append_dropWhile (fun c => decide (c ≠ stop))
        (t.drop opening.length)
      have hlen := congrArg List.length hsplit
      rw [← hpost] at hlen
      simp only [List.length_append, List.length_drop] at hlen
      have hol : opening.length ≤ t.length := by
        rw [← hu]; simp
      constructor <;> omega
    · rw [if_neg h2] at h
      exact Option.noConfusion h
  · rw [if_neg h1] at h
    exact Option.noConfusion h

theorem replaceAllGo_length_le (re : GoString → Option Nat) (skip : Nat) (s : GoString) :
    (replaceAllGo re skip s).length + min skip s.length ≤ s.length := by
  induction s generalizing skip with
  | nil => simp [replaceAllGo]
  | cons c cs ih =>
    cases skip with
    | succ n =>
      have := ih n
      simp only [replaceAllGo, List.length_cons]
      omega
    | zero =>
      simp only [replaceAllGo]
      cases hm : re (c :: cs) with
      | none =>
        have := ih 0
        simp only [List.length_cons]
        omega
      | some k =>
        have := ih (k - 1)
        simp only [List.length_cons]
        omega

/-- Removing the matches of a pattern whose matches have at least `m` characters
either leaves the length of the text as it is or shortens it by at least `m`. -/
theorem replaceAllGo_length (re : GoString → Option Nat) (m : Nat)
    (hre : ∀ t k, re t = some k → m ≤ k ∧ k ≤ t.length) (hm : 1 ≤ m) (s : GoString) :
    (ReplaceAllString re s).length = s.length ∨
      (ReplaceAllString re s).length + m ≤ s.length := by
  unfold ReplaceAllString
  induction s with
  | nil => left; rfl
  | cons c cs ih =>
    simp only [replaceAllGo]
    cases hmatch : re (c :: cs) with
    | none =>
      simp only [List.length_cons]
      rcases ih with h | h
      · left; omega
      · right; omega
    | some k =>
      right
      obtain ⟨h1, h2⟩ := hre _ _ hmatch
      have := replaceAllGo_length_le re (k - 1) cs
      simp only [List.length_cons] at h2 ⊢
      omega

end regexp

namespace wiktparse
open referenceType

theorem templatesLoop_isSome (templates : List GoString) :
    ∃ refs, templatesLoop templates = some refs := by
  induction templates with
  | nil => exact ⟨[], rfl⟩
  | cons t ts ih =>
    obtain ⟨more, hmore⟩ := ih
    obtain ⟨produced, hp⟩ := parseComponents_isSome (templateComponents t)
    refine ⟨dropPlaceholders produced ++ more, ?_⟩
    simp [templatesLoop, parseTemplate, parseTemplateBody, hp, hmore]

/-- The text left after the root and multiple-images templates are removed is as
long as the section text or at least eight characters shorter. -/
theorem stripped_length (text : GoString) :
    (regexp.ReplaceAllString imgTemplateRegex
        (regexp.ReplaceAllString rootTemplateRegex text)).length = text.length ∨
      (regexp.ReplaceAllString imgTemplateRegex
        (regexp.ReplaceAllString rootTemplateRegex text)).length + 8 ≤ text.length := by
  have hroot : ∀ t k, rootTemplateRegex t = some k → 8 ≤ k ∧ k ≤ t.length := by
    intro t k h
    have := regexp.matchDelimited_length _ _ _ _ _ h
    simpa using this
  have himg : ∀ t k, imgTemplateRegex t = some k → 8 ≤ k ∧ k ≤ t.length := by
    intro t k h
    have := regexp.matchDelimited_length _ _ _ _ _ h
    simp only [String.toList, List.length_cons, List.length_nil] at this
    omega
  have h1 := regexp.replaceAllGo_length rootTemplateRegex 8 hroot (by omega) text
  have h2 := regexp.replaceAllGo_length imgTemplateRegex 8 himg (by omega)
    (regexp.ReplaceAllString rootTemplateRegex text)
  omega

theorem parseEtymologySection_unfold (text : GoString) :
    parseEtymologySection text =
      if (sectionScan text).containedTemplate = false then some []
      else if (sectionScan text).endIndex > ((strippedSection text).length : Int) then some []
      else
        (goSlice (strippedSection text) (sectionScan text).startIndex
          ((sectionScan text).endIndex + 1)).bind fun part =>
        templatesLoop (regexp.FindAllString templatesRegex
          (regexp.ReplaceAllString withinParenRegex part)) := rfl

/-- The bounds of the slice, whenever the guard of line 149 does not reject. -/
theorem sectionScan_bounds (text : GoString)
    (hguard : ¬ (sectionScan text).endIndex > ((strippedSection text).length : Int)) :
    0 ≤ (sectionScan text).startIndex ∧
      (sectionScan text).startIndex ≤ (sectionScan text).endIndex + 1 ∧
      (sectionScan text).endIndex + 1 ≤ ((strippedSection text).length : Int) := by
  have hlen := stripped_length text
  obtain ⟨hb0, hb1, hb2⟩ := scanLoop_bounds (strippedSection text) 0
    ⟨0, 0, (text.length : Int) - 1, false⟩ (le_refl _) (le_refl _)
  change (strippedSection text).length = text.length ∨
    (strippedSection text).length + 8 ≤ text.length at hlen
  change 0 ≤ (sectionScan text).startIndex at hb0
  change (sectionScan text).startIndex ≤ 0 + ((strippedSection text).length : Int) at hb1
  change (sectionScan text).endIndex = (text.length : Int) - 1 ∨
    ((sectionScan text).startIndex ≤ (sectionScan text).endIndex + 1 ∧
      (sectionScan text).endIndex + 1 < 0 + ((strippedSection text).length : Int)) at hb2
  rcases hb2 with h | ⟨h, h'⟩ <;> omega

theorem parseEtymologySection_isSome (text : GoString) :
    ∃ refs, parseEtymologySection text = some refs := by
  rw [parseEtymologySection_unfold]
  split_ifs with h1 h2
  · exact ⟨[], rfl⟩
  · exact ⟨[], rfl⟩
  · have hbounds := sectionScan_bounds text h2
    unfold goSlice
    rw [if_pos hbounds]
    exact templatesLoop_isSome _

/-- Claim C19. The function `parseEtymologySection` never slices out of range:
for every section text, whenever the slice `section[startIndex : endIndex+1]` is
taken (a brace was seen and the guard `endIndex > len(section)` did not reject),
`0 ≤ startIndex ≤ endIndex + 1 ≤ len` holds for the length of the stripped
text, so the slice expression and the function return. This holds although the
end index starts from the length of the text before the removal: a removal
shortens the text by at least eight characters, so the stale end index never
equals the new length and is rejected by the guard. -/
theorem parseEtymologySection_slice_in_range (text : GoString)
    (hseen : (sectionScan text).containedTemplate = true)
    (hguard : ¬ (sectionScan text).endIndex > ((strippedSection text).length : Int)) :
    (0 ≤ (sectionScan text).startIndex ∧
      (sectionScan text).startIndex ≤ (sectionScan text).endIndex + 1 ∧
      (sectionScan text).endIndex + 1 ≤ ((strippedSection text).length : Int)) ∧
    ((strippedSection text).length = text.length ∨
      (strippedSection text).length + 8 ≤ text.length) ∧
    (∃ part, goSlice (strippedSection text) (sectionScan text).startIndex
      ((sectionScan text).endIndex + 1) = some part ∧
      parseEtymologySection text = templatesLoop (regexp.FindAllString templatesRegex
        (regexp.ReplaceAllString withinParenRegex part))) ∧
    (∃ refs, parseEtymologySection text = some refs) := by
  have hbounds := sectionScan_bounds text hguard
  refine ⟨hbounds, stripped_length text, ?_, parseEtymologySection_isSome text⟩
  refine ⟨_, by unfold goSlice; rw [if_pos hbounds], ?_⟩
  rw [parseEtymologySection_unfold]
  have h1 : ¬ (sectionScan text).containedTemplate = false := by simp [hseen]
  rw [if_neg h1, if_neg hguard]
  unfold goSlice
  rw [if_pos hbounds]
  rfl

/-- Witness of claim C19 at `Du {{inh|fr|frm|bar}}, x`: the scan stops at the
comma and the slice `[0 : 21]` lies within the 24 characters of the text. -/
theorem parseEtymologySection_slice_in_range_witness :
    (sectionScan "Du {{inh|fr|frm|bar}}, x".toList).startIndex = 0 ∧
      (sectionScan "Du {{inh|fr|frm|bar}}, x".toList).endIndex = 20 ∧
      (strippedSection "Du {{inh|fr|frm|bar}}, x".toList).length = 24 ∧
      (0 ≤ (sectionScan "Du {{inh|fr|frm|bar}}, x".toList).startIndex ∧
        (sectionScan "Du {{inh|fr|frm|bar}}, x".toList).startIndex ≤
          (sectionScan "Du {{inh|fr|frm|bar}}, x".toList).endIndex + 1 ∧
        (sectionScan "Du {{inh|fr|frm|bar}}, x".toList).endIndex + 1 ≤
          ((strippedSection "Du {{inh|fr|frm|bar}}, x".toList).length : Int)) :=
  ⟨by decide, by decide, by decide,
    (parseEtymologySection_slice_in_range "Du {{inh|fr|frm|bar}}, x".toList
      (by decide) (by decide)).1⟩

end wiktparse

namespace wiktparse
open referenceType

/-! ## The end of the useful span -/

theorem scanLoop_cons_continue (x : Char) (cs : GoString) (i : Int) (st : scanState)
    (h : ¬ ((x = ',' ∨ x = '.' ∨ x = '\n') ∧ st.containedTemplate = true ∧
      st.templateCount = 0)) :
    scanLoop (x :: cs) i st = scanLoop cs (i + 1) (stepState x i st) := by
  rw [scanLoop]
  unfold stepState
  split_ifs with h1 h2 h3 h4 h5 h6 h7 <;> first | rfl | (exfalso; tauto)

theorem scanLoop_cons_stop (x : Char) (cs : GoString) (i : Int) (st : scanState)
    (hx : x = ',' ∨ x = '.' ∨ x = '\n') (hseen : st.containedTemplate = true)
    (hdepth : st.templateCount = 0) :
    scanLoop (x :: cs) i st = { st with endIndex := i - 1 } := by
  have h1 : x ≠ '{' := by rcases hx with h | h | h <;> subst h <;> decide
  have h2 : x ≠ '}' := by rcases hx with h | h | h <;> subst h <;> decide
  rw [scanLoop, if_neg h1, if_neg h2, if_pos hx, if_pos ⟨hseen, hdepth⟩]

theorem NoStop_tail (x : Char) (p : GoString) (i : Int) (st : scanState)
    (h : NoStop st (x :: p)) : NoStop (stepState x i st) p := by
  intro p1 c p2 hp hc hcond
  have h0 := h (x :: p1) c p2 (by rw [hp]; rfl) hc
  apply h0
  obtain ⟨hseen, hdepth⟩ := hcond
  unfold stepState at hseen hdepth
  simp only [braceDepth, List.mem_cons]
  split_ifs at hseen hdepth with h1 h2 h3
  · subst h1
    simp only at hdepth
    refine ⟨Or.inr (Or.inl rfl), ?_⟩
    simp only [if_true]
    omega
  · subst h2
    simp only at hdepth hseen
    refine ⟨?_, ?_⟩
    · rcases hseen with hs | hs
      · exact Or.inl hs
      · exact Or.inr (Or.inr hs)
    · rw [if_neg h1, if_pos rfl]
      omega
  · simp only at hdepth hseen
    refine ⟨?_, ?_⟩
    · rcases hseen with hs | hs
      · exact Or.inl hs
      · exact Or.inr (Or.inr hs)
    · rw [if_neg h1, if_neg h2]
      omega
  · refine ⟨?_, ?_⟩
    · rcases hseen with hs | hs
      · exact Or.inl hs
      · exact Or.inr (Or.inr hs)
    · rw [if_neg h1, if_neg h2]
      omega

theorem NoStop_head (x : Char) (p : GoString) (st : scanState) (h : NoStop st (x :: p)) :
    ¬ ((x = ',' ∨ x = '.' ∨ x = '\n') ∧ st.containedTemplate = true ∧
      st.templateCount = 0) := by
  rintro ⟨hx, hseen, hdepth⟩
  exact h [] x p rfl hx ⟨Or.inl hseen, by simp [braceDepth, hdepth]⟩

/-- A scan that meets no stop in `p` goes on after `p` from the state it has
there; it has counted the braces of `p`, and its end index is untouched. -/
theorem scanLoop_append_of_noStop (p rest : GoString) (i : Int) (st : scanState)
    (h : NoStop st p) :
    scanLoop (p ++ rest) i st = scanLoop rest (i + p.length) (scanLoop p i st) ∧
      (scanLoop p i st).templateCount = st.templateCount + braceDepth p ∧
      ((scanLoop p i st).containedTemplate = true ↔
        (st.containedTemplate = true ∨ '{' ∈ p)) ∧
      (scanLoop p i st).endIndex = st.endIndex := by
  induction p generalizing i st with
  | nil => simp [scanLoop, braceDepth]
  | cons x p ih =>
    have hhead := NoStop_head x p st h
    have htail := NoStop_tail x p i st h
    obtain ⟨ih1, ih2, ih3, ih4⟩ := ih (i + 1) (stepState x i st) htail
    rw [List.cons_append, scanLoop_cons_continue x (p ++ rest) i st hhead,
      scanLoop_cons_continue x p i st hhead, ih1, ih2, ih3, ih4]
    refine ⟨?_, ?_, ?_, ?_⟩
    · congr 1
      simp only [List.length_cons]
      push_cast
      omega
    · unfold stepState
      simp only [braceDepth]
      split_ifs <;> (try dsimp only) <;> omega
    · unfold stepState
      simp only [List.mem_cons]
      split_ifs with h1 h2 h3
      · subst h1; simp
      · have : ¬ '{' = x := fun h => h1 h.symm
        simp [this]
      · have : ¬ '{' = x := fun h => h1 h.symm
        simp [this]
      · have : ¬ '{' = x := fun h => h1 h.symm
        simp [this]
    · unfold stepState
      split_ifs <;> rfl

/-- The start index the scan reaches does not depend on the end index it starts
from, as long as it meets no stop. -/
theorem scanLoop_startIndex_of_noStop (p : GoString) (i : Int) (st st2 : scanState)
    (h : NoStop st p) (h1 : st.templateCount = st2.templateCount)
    (h2 : st.startIndex = st2.startIndex) (h3 : st.containedTemplate = st2.containedTemplate) :
    (scanLoop p i st).startIndex = (scanLoop p i st2).startIndex := by
  induction p generalizing i st st2 with
  | nil => simpa [scanLoop] using h2
  | cons x p ih =>
    have hhead := NoStop_head x p st h
    have htail := NoStop_tail x p i st h
    have hhead2 : ¬ ((x = ',' ∨ x = '.' ∨ x = '\n') ∧ st2.containedTemplate = true ∧
        st2.templateCount = 0) := by
      rw [← h1, ← h3]; exact hhead
    rw [scanLoop_cons_continue x p i st hhead, scanLoop_cons_continue x p i st2 hhead2]
    apply ih (i + 1) _ _ htail
    · unfold stepState
      rw [← h1]
      split_ifs <;> simp only [h1]
    · unfold stepState
      rw [← h1]
      split_ifs <;> simp only [h2]
    · unfold stepState
      rw [← h1]
      split_ifs <;> simp only [h3]

end wiktparse

namespace wiktparse
open referenceType

/-- No index before `i` is a stop of the text: the scan from the initial state
meets no stop in the first `i` characters. -/
theorem noStop_of_no_stopAt (text : GoString) (i : Nat)
    (h : ∀ j, j < i → ¬ stopAt text j) (st : scanState) (h0 : st.templateCount = 0)
    (hc : st.containedTemplate = false) : NoStop st (text.take i) := by
  intro p1 c p2 hp hstop hcond
  have hsplit : text = p1 ++ c :: (p2 ++ text.drop i) := by
    conv_lhs => rw [← List.take_append_drop i text, hp]
    simp
  have hj : p1.length < i := by
    have := congrArg List.length hp
    simp only [List.length_take, List.length_append, List.length_cons] at this
    omega
  apply h p1.length hj
  have hget : text.get? p1.length = some c := by
    rw [hsplit, List.get?_eq_getElem?, List.getElem?_append_right (Nat.le_refl _)]
    simp
  have htake : text.take p1.length = p1 := by
    rw [hsplit]
    simp
  refine ⟨?_, ?_, ?_⟩
  · rw [hget]
    rcases hstop with h | h | h <;> subst h <;> simp
  · rw [htake]
    rcases hcond.1 with h | h
    · rw [hc] at h; exact Bool.noConfusion h
    · exact h
  · rw [htake]
    have := hcond.2
    omega

/-- The scan of a text free of removed templates that has its first stop at the
index `i`: the end index is `i - 1`, a brace was seen, and the start index is the
one the scan of the first `i` characters reaches. -/
theorem sectionScan_of_stop (text : GoString) (i : Nat) (hstop : stopAt text i)
    (hfirst : ∀ j, j < i → ¬ stopAt text j) (hfree : freeOfRemovedTemplates text) :
    strippedSection text = text ∧
      (sectionScan text).endIndex = (i : Int) - 1 ∧
      (sectionScan text).containedTemplate = true ∧
      (sectionScan text).startIndex =
        (scanLoop (text.take i) 0 ⟨0, 0, 0, false⟩).startIndex ∧
      0 ≤ (sectionScan text).startIndex ∧ (sectionScan text).startIndex ≤ (i : Int) := by
  have hroot : regexp.ReplaceAllString rootTemplateRegex text = text :=
    regexp.replaceAllGo_of_no_match _ _
      (regexp.no_match_of_not_containsSpan _ _ _ _ hfree.1)
  have himg : regexp.ReplaceAllString imgTemplateRegex text = text :=
    regexp.replaceAllGo_of_no_match _ _
      (regexp.no_match_of_not_containsSpan _ _ _ _ hfree.2)
  have hstrip : strippedSection text = text := by
    unfold strippedSection
    rw [hroot, himg]
  obtain ⟨hchar, hseen, hdepth⟩ := hstop
  obtain ⟨c, hget, hc⟩ : ∃ c, text.get? i = some c ∧ (c = ',' ∨ c = '.' ∨ c = '\n') := by
    rcases hchar with h | h | h
    · exact ⟨_, h, Or.inl rfl⟩
    · exact ⟨_, h, Or.inr (Or.inl rfl)⟩
    · exact ⟨_, h, Or.inr (Or.inr rfl)⟩
  have hi : i < text.length := by
    by_contra hge
    rw [List.get?_eq_getElem?, List.getElem?_eq_none (by omega)] at hget
    exact Option.noConfusion hget
  have hsplit : text = text.take i ++ c :: text.drop (i + 1) := by
    conv_lhs => rw [← List.take_append_drop i text]
    congr 1
    rw [List.get?_eq_getElem?, List.getElem?_eq_getElem hi] at hget
    cases hget
    exact List.drop_eq_getElem_cons hi
  have hlen : (text.take i).length = i := by
    rw [List.length_take]; omega
  have hns := noStop_of_no_stopAt text i hfirst ⟨0, 0, (text.length : Int) - 1, false⟩ rfl rfl
  have hns0 := noStop_of_no_stopAt text i hfirst ⟨0, 0, 0, false⟩ rfl rfl
  obtain ⟨ha, hb, hcn, _⟩ := scanLoop_append_of_noStop (text.take i)
    (c :: text.drop (i + 1)) 0 ⟨0, 0, (text.length : Int) - 1, false⟩ hns
  have hseen2 : (scanLoop (text.take i) 0
      ⟨0, 0, (text.length : Int) - 1, false⟩).containedTemplate = true :=
    hcn.mpr (Or.inr hseen)
  have hdepth2 : (scanLoop (text.take i) 0
      ⟨0, 0, (text.length : Int) - 1, false⟩).templateCount = 0 := by
    rw [hb, hdepth]; rfl
  have hscan : sectionScan text =
      { scanLoop (text.take i) 0 ⟨0, 0, (text.length : Int) - 1, false⟩ with
        endIndex := (i : Int) - 1 } := by
    unfold sectionScan
    rw [hstrip]
    rw [← hsplit] at ha
    rw [ha, scanLoop_cons_stop c _ _ _ hc hseen2 hdepth2, hlen]
    simp
  have hstart := scanLoop_startIndex_of_noStop (text.take i) 0
    ⟨0, 0, (text.length : Int) - 1, false⟩ ⟨0, 0, 0, false⟩ hns rfl rfl rfl
  obtain ⟨hb0, hb1, _⟩ := scanLoop_bounds (text.take i) 0 ⟨0, 0, 0, false⟩
    (le_refl _) (le_refl _)
  rw [hlen] at hb1
  refine ⟨hstrip, ?_, ?_, ?_, ?_, ?_⟩
  · rw [hscan]
  · rw [hscan]; exact hseen2
  · rw [hscan]; exact hstart
  · rw [hscan]; show 0 ≤ (scanLoop _ _ _).startIndex; rw [hstart]; exact hb0
  · rw [hscan]; show (scanLoop _ _ _).startIndex ≤ _; rw [hstart]; omega

/-- The result of `parseEtymologySection` on a text free of removed templates
that has its first stop at the index `i`: the templates of the text between the
start index and `i`, which is a function of the first `i` characters. -/
theorem parseEtymologySection_of_stop (text : GoString) (i : Nat) (hstop : stopAt text i)
    (hfirst : ∀ j, j < i → ¬ stopAt text j) (hfree : freeOfRemovedTemplates text) :
    parseEtymologySection text =
      templatesLoop (regexp.FindAllString templatesRegex
        (regexp.ReplaceAllString withinParenRegex
          ((text.take i).drop
            (scanLoop (text.take i) 0 ⟨0, 0, 0, false⟩).startIndex.toNat))) := by
  obtain ⟨hstrip, hend, hseen, hstart, h0, hle⟩ := sectionScan_of_stop text i hstop hfirst hfree
  have hi : i < text.length := by
    obtain ⟨hchar, _, _⟩ := hstop
    by_contra hge
    rw [List.get?_eq_getElem?, List.getElem?_eq_none (by omega)] at hchar
    simp at hchar
  rw [parseEtymologySection_unfold]
  have h1 : ¬ (sectionScan text).containedTemplate = false := by simp [hseen]
  have h2 : ¬ (sectionScan text).endIndex > ((strippedSection text).length : Int) := by
    rw [hend, hstrip]; omega
  rw [if_neg h1, if_neg h2]
  have hbounds : 0 ≤ (sectionScan text).startIndex ∧
      (sectionScan text).startIndex ≤ (sectionScan text).endIndex + 1 ∧
      (sectionScan text).endIndex + 1 ≤ ((strippedSection text).length : Int) := by
    rw [hend, hstrip]; omega
  unfold goSlice
  rw [if_pos hbounds, hend, hstrip, hstart]
  simp

end wiktparse

namespace regexp

/-- A text in which the pattern matches at no position contains no span. -/
theorem not_containsSpan_of_forall (opening : GoString) (stop : Char) (closing s : GoString)
    (h : ∀ n, n < s.length + 1 →
      (matchDelimited opening stop (stop :: closing) (s.drop n)).isSome = false) :
    ¬ containsSpan opening stop (stop :: closing) s := by
  intro hspan
  obtain ⟨n, hn, hm⟩ := match_of_containsSpan opening stop closing s hspan
  rw [h n hn] at hm
  exact Bool.noConfusion hm

end regexp

namespace wiktparse
open referenceType

theorem stopAt_congr (text text2 : GoString) (i j : Nat) (hj : j ≤ i)
    (hsame : text2.take (i + 1) = text.take (i + 1)) : stopAt text2 j ↔ stopAt text j := by
  have hget : text2.get? j = text.get? j := by
    have h1 : (text2.take (i + 1)).get? j = text2.get? j := by
      rw [List.get?_eq_getElem?, List.get?_eq_getElem?, List.getElem?_take_of_lt (by omega)]
    have h2 : (text.take (i + 1)).get? j = text.get? j := by
      rw [List.get?_eq_getElem?, List.get?_eq_getElem?, List.getElem?_take_of_lt (by omega)]
    rw [← h1, ← h2, hsame]
  have htake : text2.take j = text.take j := by
    have h1 : (text2.take (i + 1)).take j = text2.take j := by
      rw [List.take_take, Nat.min_eq_left (by omega)]
    have h2 : (text.take (i + 1)).take j = text.take j := by
      rw [List.take_take, Nat.min_eq_left (by omega)]
    rw [← h1, ← h2, hsame]
  unfold stopAt
  rw [hget, htake]

/-- Claim C11. For every section text free of root and multiple-images templates
whose first comma, period or newline at brace depth 0 after at least one opening
brace stands at the index `i`: the useful span ends immediately before `i` (the
end index is `i - 1`), the result is made of the templates of the text before
`i` only, and every other text free of those templates that agrees with it up to
and including the index `i` gives the same references. -/
theorem parseEtymologySection_span_end (text text2 : GoString) (i : Nat)
    (hstop : stopAt text i) (hfirst : ∀ j, j < i → ¬ stopAt text j)
    (hsame : text2.take (i + 1) = text.take (i + 1))
    (hfree : freeOfRemovedTemplates text) (hfree2 : freeOfRemovedTemplates text2) :
    (sectionScan text).endIndex = (i : Int) - 1 ∧
      parseEtymologySection text =
        templatesLoop (regexp.FindAllString templatesRegex
          (regexp.ReplaceAllString withinParenRegex
            ((text.take i).drop
              (scanLoop (text.take i) 0 ⟨0, 0, 0, false⟩).startIndex.toNat))) ∧
      parseEtymologySection text2 = parseEtymologySection text := by
  have hstop2 : stopAt text2 i := (stopAt_congr text text2 i i (Nat.le_refl _) hsame).mpr hstop
  have hfirst2 : ∀ j, j < i → ¬ stopAt text2 j := fun j hj h =>
    hfirst j hj ((stopAt_congr text text2 i j (Nat.le_of_lt hj) hsame).mp h)
  have htake : text2.take i = text.take i := by
    have h1 : (text2.take (i + 1)).take i = text2.take i := by
      rw [List.take_take, Nat.min_eq_left (by omega)]
    have h2 : (text.take (i + 1)).take i = text.take i := by
      rw [List.take_take, Nat.min_eq_left (by omega)]
    rw [← h1, ← h2, hsame]
  refine ⟨(sectionScan_of_stop text i hstop hfirst hfree).2.1,
    parseEtymologySection_of_stop text i hstop hfirst hfree, ?_⟩
  rw [parseEtymologySection_of_stop text i hstop hfirst hfree,
    parseEtymologySection_of_stop text2 i hstop2 hfirst2 hfree2, htake]

/-- Witness of claim C11: in `From {{inh|en|enm|foo}}, from {{inh|enm|ang|bar}}.`
the first stop is the comma at index 23, and the template after it yields no
reference. -/
theorem parseEtymologySection_span_end_witness :
    parseEtymologySection "From {{inh|en|enm|foo}}, from {{inh|enm|ang|bar}}.".toList =
        some [⟨refTypeInherited, ⟨"enm".toList, "foo".toList⟩⟩] ∧
      parseEtymologySection "From {{inh|en|enm|foo}}, or {{m|en|x}}".toList =
        parseEtymologySection "From {{inh|en|enm|foo}}, from {{inh|enm|ang|bar}}.".toList :=
  ⟨by decide,
    (parseEtymologySection_span_end
      "From {{inh|en|enm|foo}}, from {{inh|enm|ang|bar}}.".toList
      "From {{inh|en|enm|foo}}, or {{m|en|x}}".toList 23 (by decide) (by decide) (by decide)
      ⟨regexp.not_containsSpan_of_forall _ _ _ _ (by decide),
        regexp.not_containsSpan_of_forall _ _ _ _ (by decide)⟩
      ⟨regexp.not_containsSpan_of_forall _ _ _ _ (by decide),
        regexp.not_containsSpan_of_forall _ _ _ _ (by decide)⟩).2.2⟩

/-- Sections with a removed template. For every section text from which a root
or multiple-images template is removed: when the scan of the remaining text
meets no comma, period or newline at depth 0 after a brace, the end index keeps
the value set from the length before the removal, which exceeds the length of
the remaining text, and `parseEtymologySection` returns no reference, whatever
templates the remaining text holds. -/
theorem parseEtymologySection_removed_no_stop (text : GoString)
    (hremoved : (strippedSection text).length < text.length)
    (hnostop : ∀ j, j < (strippedSection text).length → ¬ stopAt (strippedSection text) j) :
    (sectionScan text).endIndex = (text.length : Int) - 1 ∧
      (sectionScan text).endIndex > ((strippedSection text).length : Int) ∧
      parseEtymologySection text = some [] := by
  have hlen : (strippedSection text).length + 8 ≤ text.length := by
    rcases stripped_length text with h | h
    · exact absurd h (Nat.ne_of_lt hremoved)
    · exact h
  have hns : NoStop ⟨0, 0, (text.length : Int) - 1, false⟩ (strippedSection text) := by
    have := noStop_of_no_stopAt (strippedSection text) (strippedSection text).length hnostop
      ⟨0, 0, (text.length : Int) - 1, false⟩ rfl rfl
    rwa [List.take_length] at this
  obtain ⟨_, _, _, hend⟩ := scanLoop_append_of_noStop (strippedSection text) [] 0
    ⟨0, 0, (text.length : Int) - 1, false⟩ hns
  have hend2 : (sectionScan text).endIndex = (text.length : Int) - 1 := hend
  have hguard : (sectionScan text).endIndex > ((strippedSection text).length : Int) := by
    rw [hend2]; omega
  refine ⟨hend2, hguard, ?_⟩
  rw [parseEtymologySection_unfold]
  by_cases h1 : (sectionScan text).containedTemplate = false
  · rw [if_pos h1]
  · rw [if_neg h1, if_pos hguard]

/-- Claim C12, evaluated on the code. The end index is set from the length of
the text before the root and multiple-images templates are removed (line 115
runs before lines 119-120). When the scan of the remaining text meets no stop,
the end boundary is therefore not the end of the remaining text: the stale end
index exceeds the new length, the guard of line 149 rejects it and no reference
is returned, although a template lies between the start boundary and the end of
the remaining text. The section `{{root|en|ine-pro|*x}}{{inh|en|enm|foo}} {`
followed by a newline, as `parseTextTag` hands it over, yields nothing, whereas
the same text without the root template yields `Inherited(enm, foo)`; the
example of the claim yields nothing either. -/
theorem parseEtymologySection_stale_end_index :
    splitSections exampleLanguages
        ("==English==\n===Etymology===\n" ++
          "{{root|en|ine-pro|*x}}{{inh|en|enm|foo}} \x7b\n").toList =
      some [("en".toList, "{{root|en|ine-pro|*x}}{{inh|en|enm|foo}} \x7b\n".toList)] ∧
    strippedSection "{{root|en|ine-pro|*x}}{{inh|en|enm|foo}} \x7b\n".toList =
      "{{inh|en|enm|foo}} \x7b\n".toList ∧
    (∀ j, j < "{{inh|en|enm|foo}} \x7b\n".toList.length →
      ¬ stopAt "{{inh|en|enm|foo}} \x7b\n".toList j) ∧
    (sectionScan "{{root|en|ine-pro|*x}}{{inh|en|enm|foo}} \x7b\n".toList).startIndex = 0 ∧
    (sectionScan "{{root|en|ine-pro|*x}}{{inh|en|enm|foo}} \x7b\n".toList).endIndex = 42 ∧
    "{{inh|en|enm|foo}} \x7b\n".toList.length = 21 ∧
    regexp.FindAllString templatesRegex "{{inh|en|enm|foo}} \x7b\n".toList =
      ["{{inh|en|enm|foo}}".toList] ∧
    parseEtymologySection "{{root|en|ine-pro|*x}}{{inh|en|enm|foo}} \x7b\n".toList = some [] ∧
    parseEtymologySection "{{inh|en|enm|foo}} \x7b\n".toList =
      some [⟨refTypeInherited, ⟨"enm".toList, "foo".toList⟩⟩] ∧
    (sectionScan "{{inh|en|enm|foo}} \x7b\n".toList).endIndex = 20 ∧
    strippedSection "{{root|en|ine-pro|*x}}{{inh|en|enm|foo}}".toList =
      "{{inh|en|enm|foo}}".toList ∧
    (∀ j, j < "{{inh|en|enm|foo}}".toList.length →
      ¬ stopAt "{{inh|en|enm|foo}}".toList j) ∧
    (sectionScan "{{root|en|ine-pro|*x}}{{inh|en|enm|foo}}".toList).endIndex = 39 ∧
    "{{inh|en|enm|foo}}".toList.length = 18 ∧
    parseEtymologySection "{{root|en|ine-pro|*x}}{{inh|en|enm|foo}}".toList = some [] ∧
    parseEtymologySection "{{inh|en|enm|foo}}".toList =
      some [⟨refTypeInherited, ⟨"enm".toList, "foo".toList⟩⟩] := by
  and_intros <;> decide

/-- Sections without removed templates. For every section text free of root and
multiple-images templates that contains an opening brace: when the scan
completes without meeting a comma, period or newline at depth 0 after a brace,
the end index still is the last index of the text, and `parseEtymologySection`
returns the references of every template found between the start boundary and
the end of the text once the parenthesised asides are removed. -/
theorem parseEtymologySection_no_stop (text : GoString)
    (hfree : freeOfRemovedTemplates text) (hseen : '{' ∈ text)
    (hnostop : ∀ j, j < text.length → ¬ stopAt text j) :
    (sectionScan text).endIndex + 1 = (text.length : Int) ∧
      parseEtymologySection text =
        templatesLoop (regexp.FindAllString templatesRegex
          (regexp.ReplaceAllString withinParenRegex
            (text.drop (sectionScan text).startIndex.toNat))) := by
  have hroot : regexp.ReplaceAllString rootTemplateRegex text = text :=
    regexp.replaceAllGo_of_no_match _ _
      (regexp.no_match_of_not_containsSpan _ _ _ _ hfree.1)
  have himg : regexp.ReplaceAllString imgTemplateRegex text = text :=
    regexp.replaceAllGo_of_no_match _ _
      (regexp.no_match_of_not_containsSpan _ _ _ _ hfree.2)
  have hstrip : strippedSection text = text := by
    unfold strippedSection
    rw [hroot, himg]
  have hns : NoStop ⟨0, 0, (text.length : Int) - 1, false⟩ text := by
    have := noStop_of_no_stopAt text text.length hnostop
      ⟨0, 0, (text.length : Int) - 1, false⟩ rfl rfl
    rwa [List.take_length] at this
  obtain ⟨_, _, hcn, hend⟩ := scanLoop_append_of_noStop text [] 0
    ⟨0, 0, (text.length : Int) - 1, false⟩ hns
  have hend2 : (sectionScan text).endIndex = (text.length : Int) - 1 := by
    unfold sectionScan
    rw [hstrip]
    exact hend
  have hseen2 : (sectionScan text).containedTemplate = true := by
    unfold sectionScan
    rw [hstrip]
    exact hcn.mpr (Or.inr hseen)
  have hguard : ¬ (sectionScan text).endIndex > ((strippedSection text).length : Int) := by
    rw [hend2, hstrip]; omega
  have hbounds := sectionScan_bounds text hguard
  refine ⟨by rw [hend2]; omega, ?_⟩
  rw [parseEtymologySection_unfold]
  have h1 : ¬ (sectionScan text).containedTemplate = false := by simp [hseen2]
  rw [if_neg h1, if_neg hguard]
  unfold goSlice
  rw [if_pos hbounds, hstrip, hend2]
  simp

/-- Templates inside a parenthesised aside. In `see ({{m|en|foo}})` the scan
meets no stop and the template lies between the start and the end of the text,
yet no reference is returned: the parenthesised asides are removed (line 155)
before the templates are searched (line 158). -/
theorem parseEtymologySection_paren_aside :
    (∀ j, j < "see ({{m|en|foo}})".toList.length → ¬ stopAt "see ({{m|en|foo}})".toList j) ∧
      regexp.FindAllString templatesRegex "see ({{m|en|foo}})".toList =
        ["{{m|en|foo}}".toList] ∧
      parseTemplate "{{m|en|foo}}".toList =
        some [⟨refTypeDerived, ⟨"en".toList, "foo".toList⟩⟩] ∧
      parseEtymologySection "see ({{m|en|foo}})".toList = some [] := by
  refine ⟨by decide, by decide, by decide, by decide⟩

end wiktparse


namespace wiktparse
open referenceType

/-! ## The text-section splitter and the emitted lines -/

/-- Claim C16, evaluated on the code. A language-section header with two `=`
sets the current language and leaves the etymology subsection open (the
`continue` of line 70 comes before the test of line 78 that closes it): after
`==French==` the next line is accumulated for French although no
`===Etymology===` line precedes it. A line framed by three `=` that is not the
etymology marker does close the subsection. -/
theorem splitSections_language_header_keeps_open :
    (∀ CodeFromName st, splitLine CodeFromName st "==French==".toList =
      some { st with currentLanguage := utf8Encode "French".toList }) ∧
    (∀ CodeFromName st, splitLine CodeFromName st "===Noun===".toList =
      some { st with inEtymologySection := false }) ∧
    splitSections exampleLanguages
        ("==English==\n===Etymology===\nFrom {{inh|en|enm|foo}}.\n" ++
          "==French==\nDu {{inh|fr|frm|bar}}.\n").toList =
      some [("en".toList, "From {{inh|en|enm|foo}}.\n".toList),
            ("fr".toList, "Du {{inh|fr|frm|bar}}.\n".toList)] ∧
    splitSections exampleLanguages
        ("==English==\n===Etymology===\nFrom {{inh|en|enm|foo}}.\n" ++
          "===Noun===\nDu {{inh|fr|frm|bar}}.\n").toList =
      some [("en".toList, "From {{inh|en|enm|foo}}.\n".toList)] := by
  refine ⟨fun _ _ => rfl, fun _ _ => rfl, by decide, by decide⟩

theorem emitSection_isSome (title : GoString) (entry : GoString × GoString) :
    ∃ block, emitSection title entry = some block := by
  obtain ⟨refs, hrefs⟩ := parseEtymologySection_isSome entry.2
  exact ⟨_, by unfold emitSection; rw [hrefs, Option.some_bind, unique_eq]; rfl⟩

/-- The lines written for the entries in the order `order`: the blocks of the
entries, one after the other. -/
theorem emitSections_eq (title : GoString) (order : List (GoString × GoString)) :
    emitSections title order =
      some ((order.map fun entry => (emitSection title entry).getD []).flatten) := by
  induction order with
  | nil => rfl
  | cons entry rest ih =>
    obtain ⟨block, hblock⟩ := emitSection_isSome title entry
    simp [emitSections, hblock, ih]

/-- The entry with an English and a French etymology section can be written in
either order of its two blocks. -/
theorem exampleEntry_writes :
    parseTextTagWrites exampleLanguages "mot".toList
        ("==English==\n===Etymology===\nFrom {{inh|en|enm|foo}}.\n" ++
          "==French==\n===Etymology===\nDu {{inh|fr|frm|bar}}.\n").toList
        "en:mot\trel:inherited\tenm:foo\nfr:mot\trel:inherited\tfrm:bar\n".toList ∧
      parseTextTagWrites exampleLanguages "mot".toList
        ("==English==\n===Etymology===\nFrom {{inh|en|enm|foo}}.\n" ++
          "==French==\n===Etymology===\nDu {{inh|fr|frm|bar}}.\n").toList
        "fr:mot\trel:inherited\tfrm:bar\nen:mot\trel:inherited\tenm:foo\n".toList := by
  have hsplit : splitSections exampleLanguages
        ("==English==\n===Etymology===\nFrom {{inh|en|enm|foo}}.\n" ++
          "==French==\n===Etymology===\nDu {{inh|fr|frm|bar}}.\n").toList =
      some [("en".toList, "From {{inh|en|enm|foo}}.\n".toList),
            ("fr".toList, "Du {{inh|fr|frm|bar}}.\n".toList)] := by decide
  have hen : emitSection "mot".toList ("en".toList, "From {{inh|en|enm|foo}}.\n".toList) =
      some ["en:mot\trel:inherited\tenm:foo\n".toList] := by
    unfold emitSection
    have h : parseEtymologySection "From {{inh|en|enm|foo}}.\n".toList =
        some [⟨refTypeInherited, ⟨"enm".toList, "foo".toList⟩⟩] := by decide
    simp only [h, Option.some_bind, unique_eq]
    decide
  have hfr : emitSection "mot".toList ("fr".toList, "Du {{inh|fr|frm|bar}}.\n".toList) =
      some ["fr:mot\trel:inherited\tfrm:bar\n".toList] := by
    unfold emitSection
    have h : parseEtymologySection "Du {{inh|fr|frm|bar}}.\n".toList =
        some [⟨refTypeInherited, ⟨"frm".toList, "bar".toList⟩⟩] := by decide
    simp only [h, Option.some_bind, unique_eq]
    decide
  refine ⟨⟨_, _, ["en:mot\trel:inherited\tenm:foo\n".toList,
      "fr:mot\trel:inherited\tfrm:bar\n".toList], hsplit, List.Perm.refl _, ?_, ?_⟩,
    ⟨_, _, ["fr:mot\trel:inherited\tfrm:bar\n".toList,
      "en:mot\trel:inherited\tenm:foo\n".toList], hsplit, List.Perm.swap _ _ _, ?_, ?_⟩⟩
  · simp only [emitSections, hen, hfr, Option.some_bind, Option.map_some']
    rfl
  · decide
  · simp only [emitSections, hen, hfr, Option.some_bind, Option.map_some']
    rfl
  · decide

/-- Counterexample to claim C17 as stated: an entry with etymology sections for
two languages has two possible outputs, one for each order in which the `range`
loop can visit the map, and they differ. -/
theorem parseTextTag_order_counterexample :
    parseTextTagWrites exampleLanguages "mot".toList
        ("==English==\n===Etymology===\nFrom {{inh|en|enm|foo}}.\n" ++
          "==French==\n===Etymology===\nDu {{inh|fr|frm|bar}}.\n").toList
        "en:mot\trel:inherited\tenm:foo\nfr:mot\trel:inherited\tfrm:bar\n".toList ∧
      parseTextTagWrites exampleLanguages "mot".toList
        ("==English==\n===Etymology===\nFrom {{inh|en|enm|foo}}.\n" ++
          "==French==\n===Etymology===\nDu {{inh|fr|frm|bar}}.\n").toList
        "fr:mot\trel:inherited\tfrm:bar\nen:mot\trel:inherited\tenm:foo\n".toList ∧
      "en:mot\trel:inherited\tenm:foo\nfr:mot\trel:inherited\tfrm:bar\n".toList ≠
        "fr:mot\trel:inherited\tfrm:bar\nen:mot\trel:inherited\tenm:foo\n".toList :=
  ⟨exampleEntry_writes.1, exampleEntry_writes.2, by decide⟩

theorem sectionsAppend_keys (sections : List (GoString × GoString)) (key value : GoString) :
    (sectionsAppend sections key value).map Prod.fst =
      if key ∈ sections.map Prod.fst then sections.map Prod.fst
      else sections.map Prod.fst ++ [key] := by
  induction sections with
  | nil => simp [sectionsAppend]
  | cons entry rest ih =>
    obtain ⟨k, v⟩ := entry
    by_cases hk : k = key
    · subst hk
      simp [sectionsAppend]
    · have hk2 : ¬ key = k := fun h => hk h.symm
      simp only [sectionsAppend, if_neg hk, List.map_cons, ih, List.mem_cons, hk2, false_or]
      split_ifs <;> simp

theorem sectionsAppend_nodup (sections : List (GoString × GoString)) (key value : GoString)
    (h : (sections.map Prod.fst).Nodup) :
    ((sectionsAppend sections key value).map Prod.fst).Nodup := by
  rw [sectionsAppend_keys]
  split_ifs with hmem
  · exact h
  · rw [List.nodup_append]
    refine ⟨h, List.nodup_singleton key, ?_⟩
    intro a ha hb
    rw [List.mem_singleton] at hb
    subst hb
    exact hmem ha

theorem splitLine_nodup (CodeFromName : List Nat → Option GoString) (st st2 : splitState)
    (line : GoString) (h : (st.sections.map Prod.fst).Nodup)
    (hstep : splitLine CodeFromName st line = some st2) :
    (st2.sections.map Prod.fst).Nodup := by
  unfold splitLine at hstep
  simp only at hstep
  by_cases h1 : (utf8Encode line).length < 4
  · rw [if_pos h1] at hstep
    cases hstep
    exact h
  · rw [if_neg h1] at hstep
    cases hb0 : goIndex (utf8Encode line) 0 with
    | none => rw [hb0] at hstep; exact Option.noConfusion hstep
    | some b0 =>
      cases hb1 : goIndex (utf8Encode line) 1 with
      | none => rw [hb0, hb1] at hstep; exact Option.noConfusion hstep
      | some b1 =>
        cases hb2 : goIndex (utf8Encode line) 2 with
        | none => rw [hb0, hb1, hb2] at hstep; exact Option.noConfusion hstep
        | some b2 =>
          rw [hb0, hb1, hb2] at hstep
          simp only [Option.some_bind] at hstep
          by_cases h2 : b0 = '='.toNat ∧ b1 = '='.toNat ∧ b2 ≠ '='.toNat
          · rw [if_pos h2] at hstep
            cases hs : goSlice (utf8Encode line) 2 (((utf8Encode line).length : Int) - 2) with
            | none => rw [hs] at hstep; exact Option.noConfusion hstep
            | some name =>
              rw [hs] at hstep
              cases hstep
              exact h
          · rw [if_neg h2] at hstep
            by_cases h3 : line = "===Etymology===".toList
            · rw [if_pos h3] at hstep
              cases hstep
              exact h
            · rw [if_neg h3] at hstep
              by_cases h4 : b0 = '='.toNat
              · rw [if_pos h4] at hstep
                cases hstep
                exact h
              · rw [if_neg h4] at hstep
                by_cases h5 : st.inEtymologySection = true
                · rw [if_pos h5] at hstep
                  cases hc : CodeFromName st.currentLanguage with
                  | none =>
                    rw [hc] at hstep
                    cases hstep
                    exact h
                  | some code =>
                    rw [hc] at hstep
                    cases hstep
                    exact sectionsAppend_nodup _ _ _ h
                · rw [if_neg h5] at hstep
                  cases hstep
                  exact h

theorem splitLoop_nodup (CodeFromName : List Nat → Option GoString) (lines : List GoString)
    (st st2 : splitState) (h : (st.sections.map Prod.fst).Nodup)
    (hloop : splitLoop CodeFromName st lines = some st2) :
    (st2.sections.map Prod.fst).Nodup := by
  induction lines generalizing st with
  | nil =>
    simp only [splitLoop] at hloop
    cases hloop
    exact h
  | cons line rest ih =>
    simp only [splitLoop] at hloop
    cases hstep : splitLine CodeFromName st line with
    | none => rw [hstep] at hloop; exact Option.noConfusion hloop
    | some st1 =>
      rw [hstep, Option.some_bind] at hloop
      exact ih st1 (splitLine_nodup CodeFromName st st1 line h hstep) hloop

/-- Each language code is the key of at most one entry of `sections`. -/
theorem splitSections_nodup (CodeFromName : List Nat → Option GoString) (text : GoString)
    (sections : List (GoString × GoString))
    (h : splitSections CodeFromName text = some sections) :
    (sections.map Prod.fst).Nodup := by
  unfold splitSections at h
  cases hloop : splitLoop CodeFromName ⟨[], false, []⟩ (strings.Split text "\n".toList) with
  | none => rw [hloop] at h; exact Option.noConfusion h
  | some st =>
    rw [hloop] at h
    cases h
    exact splitLoop_nodup CodeFromName _ _ st (by exact List.nodup_nil) hloop

/-- The lines written in the order `order` are the blocks of the entries, each
the block `emitSection` gives for its entry, one after the other. -/
theorem emitSections_blocks (title : GoString) (order : List (GoString × GoString)) :
    ∃ blocks, List.Forall₂ (fun entry block => emitSection title entry = some block)
        order blocks ∧
      blocks = order.map (fun entry => (emitSection title entry).getD []) ∧
      emitSections title order = some blocks.flatten := by
  refine ⟨_, ?_, rfl, emitSections_eq title order⟩
  induction order with
  | nil => exact List.Forall₂.nil
  | cons entry rest ih =>
    obtain ⟨block, hblock⟩ := emitSection_isSome title entry
    refine List.Forall₂.cons ?_ ih
    show emitSection title entry = some ((emitSection title entry).getD [])
    rw [hblock]
    rfl

/-- Claim C17, amended. For every entry and language mapping, two runs of
`parseTextTag` start from the same map of sections, in which each language
occurs once, and each run writes, for the entries of that map in the order in
which its `range` loop visits them, the block of lines of the entry, which is
determined by the language, the title and the section text. Two runs therefore
write the same block of lines for each language section, each block in the same
order; only the order of the blocks of different languages may differ, the
order in which `range` visits a map not being determined. The outputs are
byte-identical when the entry has an etymology section for at most one
language. -/
theorem parseTextTag_writes_same_blocks (CodeFromName : List Nat → Option GoString)
    (title text written1 written2 : GoString)
    (h1 : parseTextTagWrites CodeFromName title text written1)
    (h2 : parseTextTagWrites CodeFromName title text written2) :
    ∃ sections, splitSections CodeFromName text = some sections ∧
      (sections.map Prod.fst).Nodup ∧
      (∃ order1 order2 blocks1 blocks2,
        order1.Perm sections ∧ order2.Perm sections ∧
        List.Forall₂ (fun entry block => emitSection title entry = some block)
          order1 blocks1 ∧
        List.Forall₂ (fun entry block => emitSection title entry = some block)
          order2 blocks2 ∧
        blocks1.Perm blocks2 ∧
        written1 = blocks1.flatten.flatten ∧ written2 = blocks2.flatten.flatten) ∧
      (sections.length ≤ 1 → written1 = written2) := by
  obtain ⟨sections1, order1, lines1, hs1, hp1, he1, hw1⟩ := h1
  obtain ⟨sections2, order2, lines2, hs2, hp2, he2, hw2⟩ := h2
  rw [hs1] at hs2
  cases hs2
  obtain ⟨blocks1, hf1, hb1, hl1⟩ := emitSections_blocks title order1
  obtain ⟨blocks2, hf2, hb2, hl2⟩ := emitSections_blocks title order2
  rw [hl1] at he1
  rw [hl2] at he2
  cases he1
  cases he2
  refine ⟨sections1, hs1, splitSections_nodup CodeFromName text sections1 hs1,
    ⟨order1, order2, blocks1, blocks2, hp1, hp2, hf1, hf2, ?_, hw1, hw2⟩, ?_⟩
  · rw [hb1, hb2]
    exact (hp1.trans hp2.symm).map _
  · intro hlen
    have horder : order1 = order2 := by
      match sections1, hp1, hp2, hlen with
      | [], hp1, hp2, _ => rw [List.perm_nil.mp hp1, List.perm_nil.mp hp2]
      | [e], hp1, hp2, _ => rw [List.perm_singleton.mp hp1, List.perm_singleton.mp hp2]
      | _ :: _ :: _, _, _, hlen => simp at hlen
    rw [hw1, hw2, hb1, hb2, horder]

/-- Witness of the amended claim C17: the entry with an English and a French
section has one section per language, and its two outputs are made of the
blocks of these two sections, in the two orders. -/
theorem parseTextTag_writes_same_blocks_witness :
    ∃ sections, splitSections exampleLanguages
        ("==English==\n===Etymology===\nFrom {{inh|en|enm|foo}}.\n" ++
          "==French==\n===Etymology===\nDu {{inh|fr|frm|bar}}.\n").toList = some sections ∧
      (sections.map Prod.fst).Nodup ∧
      ∃ order1 order2 blocks1 blocks2,
        order1.Perm sections ∧ order2.Perm sections ∧
        List.Forall₂ (fun entry block => emitSection "mot".toList entry = some block)
          order1 blocks1 ∧
        List.Forall₂ (fun entry block => emitSection "mot".toList entry = some block)
          order2 blocks2 ∧
        blocks1.Perm blocks2 ∧
        "en:mot\trel:inherited\tenm:foo\nfr:mot\trel:inherited\tfrm:bar\n".toList =
          blocks1.flatten.flatten ∧
        "fr:mot\trel:inherited\tfrm:bar\nen:mot\trel:inherited\tenm:foo\n".toList =
          blocks2.flatten.flatten :=
  let ⟨sections, hsections, hnodup, hblocks, _⟩ :=
    parseTextTag_writes_same_blocks exampleLanguages "mot".toList
      ("==English==\n===Etymology===\nFrom {{inh|en|enm|foo}}.\n" ++
        "==French==\n===Etymology===\nDu {{inh|fr|frm|bar}}.\n").toList _ _
      exampleEntry_writes.1 exampleEntry_writes.2
  ⟨sections, hsections, hnodup, hblocks⟩

end wiktparse


namespace strings

/-! ## Splitting on a separator -/

theorem splitGo_ne_nil (sep : GoString) (n : Nat) (s : GoString) : splitGo sep n s ≠ [] := by
  induction s generalizing n with
  | nil => cases n <;> simp [splitGo]
  | cons c cs ih =>
    cases n with
    | succ n => simpa [splitGo] using ih n
    | zero =>
      simp only [splitGo]
      split_ifs
      · simp
      · cases h : splitGo sep 0 cs <;> simp

theorem splitGo_skip (sep u rest : GoString) :
    splitGo sep u.length (u ++ rest) = splitGo sep 0 rest := by
  induction u with
  | nil => rfl
  | cons c u ih => simpa [splitGo] using ih

/-- A text without the separator is a single piece. -/
theorem splitGo_single (sep s : GoString) (h : ¬ sep <:+: s) : splitGo sep 0 s = [s] := by
  induction s with
  | nil => rfl
  | cons c cs ih =>
    have hpre : ¬ sep.isPrefixOf (c :: cs) = true := by
      intro hp
      exact h (List.isPrefixOf_iff_prefix.mp hp).isInfix
    have hcs : ¬ sep <:+: cs := fun hi => h (hi.trans (List.suffix_cons c cs).isInfix)
    simp only [splitGo, if_neg hpre, ih hcs]

/-- The piece before the first occurrence of the separator: no occurrence begins
inside `a`. -/
theorem splitGo_first (sep a rest : GoString) (hsep : sep ≠ [])
    (h : ∀ t, t ≠ [] → t <:+ a → sep.isPrefixOf (t ++ (sep ++ rest)) = false) :
    splitGo sep 0 (a ++ (sep ++ rest)) = a :: splitGo sep 0 rest := by
  induction a with
  | nil =>
    match sep, hsep with
    | x :: sep2, _ =>
      have hp : (x :: sep2).isPrefixOf (x :: sep2 ++ rest) = true :=
        List.isPrefixOf_iff_prefix.mpr ⟨rest, rfl⟩
      simp only [List.nil_append, List.cons_append] at hp ⊢
      simp only [splitGo, hp, if_true, List.length_cons, Nat.add_sub_cancel]
      rw [splitGo_skip]
  | cons c a ih =>
    have hp := h (c :: a) (List.cons_ne_nil _ _) (List.suffix_refl _)
    have ih2 := ih fun t ht hsuf => h t ht (hsuf.trans (List.suffix_cons c a))
    simp only [List.cons_append] at hp ⊢
    simp only [splitGo, hp, ih2]
    simp

/-- The text has a single piece exactly when it does not contain the separator. -/
theorem splitGo_length_lt_two (sep s : GoString) (hsep : sep ≠ []) :
    (splitGo sep 0 s).length < 2 ↔ ¬ sep <:+: s := by
  induction s with
  | nil =>
    simp only [splitGo, List.length_singleton, Nat.lt_add_one, true_iff]
    intro hi
    exact hsep (List.eq_nil_of_infix_nil hi)
  | cons c cs ih =>
    by_cases hp : sep.isPrefixOf (c :: cs) = true
    · simp only [splitGo, hp, if_true, List.length_cons]
      have hne := splitGo_ne_nil sep (sep.length - 1) cs
      have hlen : 0 < (splitGo sep (sep.length - 1) cs).length := List.length_pos.mpr hne
      constructor
      · intro hlt; omega
      · intro hni
        exact absurd (List.isPrefixOf_iff_prefix.mp hp).isInfix hni
    · have hne := splitGo_ne_nil sep 0 cs
      have hlen : (splitGo sep 0 (c :: cs)).length = (splitGo sep 0 cs).length := by
        simp only [splitGo, if_neg hp]
        cases hs : splitGo sep 0 cs with
        | nil => exact absurd hs hne
        | cons p ps => rfl
      rw [hlen, ih]
      have hpre : ¬ sep <+: c :: cs := fun h => hp (List.isPrefixOf_iff_prefix.mpr h)
      rw [List.infix_cons_iff]
      tauto

/-- Splitting on a single character that does not occur in the first piece. -/
theorem Split_char_first (c : Char) (a rest : GoString) (h : c ∉ a) :
    Split (a ++ ([c] ++ rest)) [c] = a :: Split rest [c] := by
  unfold Split
  apply splitGo_first [c] a rest (List.cons_ne_nil _ _)
  intro t ht hsuf
  match t, ht with
  | x :: t2, _ =>
    have hx : x ∈ a := hsuf.subset (List.mem_cons_self _ _)
    have hne : x ≠ c := fun he => h (he ▸ hx)
    simp [List.isPrefixOf, hne]
    intro he
    exact absurd he.symm hne

theorem Split_char_single (c : Char) (s : GoString) (h : c ∉ s) : Split s [c] = [s] := by
  unfold Split
  apply splitGo_single
  intro hi
  exact h (hi.subset (List.mem_singleton_self c))

/-- Splitting on two different characters that do not occur in the first piece
one after the other. -/
theorem Split_pair_first (x y : Char) (hxy : x ≠ y) (a rest : GoString)
    (h : ¬ [x, y] <:+: a) : Split (a ++ ([x, y] ++ rest)) [x, y] = a :: Split rest [x, y] := by
  unfold Split
  apply splitGo_first [x, y] a rest (List.cons_ne_nil _ _)
  intro t ht hsuf
  match t, ht with
  | [u], _ =>
    simp only [List.singleton_append, List.cons_append, List.nil_append, List.isPrefixOf,
      Bool.and_true, Bool.and_eq_false_imp, beq_iff_eq, beq_eq_false_iff_ne]
    intro _
    exact hxy.symm
  | u :: v :: t2, _ =>
    by_contra hp
    rw [Bool.not_eq_false] at hp
    simp only [List.cons_append, List.isPrefixOf, Bool.and_true, Bool.and_eq_true,
      beq_iff_eq] at hp
    obtain ⟨h1, h2⟩ := hp
    subst h1 h2
    exact h ((List.prefix_append [x, y] t2).isInfix.trans hsuf.isInfix)

end strings


namespace etymology

/-! ## The construction of the graph -/

theorem Split_renderWord (w : Word) (h : ¬ ": ".toList <:+: w.Language)
    (h2 : ¬ ": ".toList <:+: w.Word) :
    strings.Split (renderWord w) ": ".toList = [w.Language, w.Word] := by
  unfold renderWord
  have hx : (':' : Char) ≠ ' ' := by decide
  have := strings.Split_pair_first ':' ' ' hx w.Language w.Word h
  have hs : strings.Split w.Word [':', ' '] = [w.Word] := by
    unfold strings.Split
    exact strings.splitGo_single _ _ h2
  rw [hs] at this
  simpa [List.append_assoc] using this

theorem not_mem_renderWord (c : Char) (w : Word) (hc : c ≠ ':') (hc2 : c ≠ ' ')
    (h1 : c ∉ w.Language) (h2 : c ∉ w.Word) : c ∉ renderWord w := by
  unfold renderWord
  simp only [String.toList, List.mem_append, List.mem_cons, List.mem_singleton,
    List.not_mem_nil, or_false, not_or]
  exact ⟨⟨h1, hc, hc2⟩, h2⟩

theorem Split_renderRecord (r : record) (h : recordOk r) :
    strings.Split (renderRecord r) "\t".toList =
      [renderWord r.source, r.label, renderWord r.target] := by
  obtain ⟨hsl, hsw, htl, htw, hl, _⟩ := h
  have ht1 : '\t' ∉ renderWord r.source :=
    not_mem_renderWord _ _ (by decide) (by decide) hsl.1 hsw.1
  have ht2 : '\t' ∉ renderWord r.target :=
    not_mem_renderWord _ _ (by decide) (by decide) htl.1 htw.1
  have e1 := strings.Split_char_first '\t' (renderWord r.source)
    (r.label ++ (['\t'] ++ renderWord r.target)) ht1
  have e2 := strings.Split_char_first '\t' r.label (renderWord r.target) hl
  have e3 := strings.Split_char_single '\t' (renderWord r.target) ht2
  rw [e2, e3] at e1
  unfold renderRecord
  simpa [List.append_assoc] using e1

/-- On the line of a well-formed record the loop of `New` does what the
specification says of the record. -/
theorem newLine_renderRecord (g : Etymology) (r : record) (h : recordOk r) :
    newLine g (renderRecord r) = some (applyRecord g r) := by
  have hsplit := Split_renderRecord r h
  obtain ⟨hsl, hsw, htl, htw, _, _⟩ := h
  have hs := Split_renderWord r.source hsl.2.2 hsw.2.2
  have ht := Split_renderWord r.target htl.2.2 htw.2.2
  unfold newLine applyRecord
  simp only [hsplit, goIndex, List.get?, Option.some_bind, hs, ht]
  by_cases h1 : r.label = "rel:etymology".toList
  · simp [h1]
  · by_cases h2 : r.label = "rel:is_derived_from".toList
    · simp [h2]
    · simp at h1 h2
      simp [h1, h2]

theorem newLoop_renderRecords (g : Etymology) (records : List record)
    (h : ∀ r ∈ records, recordOk r) :
    newLoop g (records.map renderRecord) = some (records.foldl applyRecord g) := by
  induction records generalizing g with
  | nil => rfl
  | cons r rs ih =>
    simp only [List.map_cons, newLoop, List.foldl_cons]
    rw [newLine_renderRecord g r (h r (List.mem_cons_self _ _)), Option.some_bind]
    exact ih _ fun r2 hr2 => h r2 (List.mem_cons_of_mem _ hr2)

theorem appended_appended (old : Option (List Word)) (t : Word) (ts : List Word) :
    appended (some (old.getD [] ++ [t])) ts = appended old (t :: ts) := by
  unfold appended
  by_cases h : ts = []
  · simp [h]
  · simp [h]

theorem foldl_applyRecord_etymologyEdges (records : List record) (g : Etymology) (w : Word) :
    (records.foldl applyRecord g).etymologyEdges w =
      appended (g.etymologyEdges w) (targetsOf records "rel:etymology".toList w) := by
  induction records generalizing g with
  | nil => simp [targetsOf, appended]
  | cons r rs ih =>
    rw [List.foldl_cons, ih]
    unfold targetsOf
    by_cases h1 : r.label = "rel:etymology".toList
    · by_cases h2 : r.source = w
      · have hf : (List.filter (fun r => decide (r.label = "rel:etymology".toList ∧
            r.source = w)) (r :: rs)) = r :: List.filter (fun r =>
            decide (r.label = "rel:etymology".toList ∧ r.source = w)) rs := by
          exact List.filter_cons_of_pos
            (by rw [decide_eq_true_iff]; exact ⟨h1, h2⟩)
        rw [hf, List.map_cons, ← appended_appended]
        congr 1
        simp [applyRecord, h1, mapAppend, h2]
      · have hf : (List.filter (fun r => decide (r.label = "rel:etymology".toList ∧
            r.source = w)) (r :: rs)) = List.filter (fun r =>
            decide (r.label = "rel:etymology".toList ∧ r.source = w)) rs := by
          exact List.filter_cons_of_neg
            (by rw [decide_eq_true_iff]; exact fun h => h2 h.2)
        rw [hf]
        congr 1
        have h3 : ¬ w = r.source := fun h => h2 h.symm
        simp [applyRecord, h1, mapAppend, h3]
    · have hf : (List.filter (fun r => decide (r.label = "rel:etymology".toList ∧
          r.source = w)) (r :: rs)) = List.filter (fun r =>
          decide (r.label = "rel:etymology".toList ∧ r.source = w)) rs := by
        exact List.filter_cons_of_neg
          (by rw [decide_eq_true_iff]; exact fun h => h1 h.1)
      rw [hf]
      congr 1
      unfold applyRecord
      rw [if_neg h1]
      split_ifs <;> rfl

theorem foldl_applyRecord_derivedFromEdges (records : List record) (g : Etymology) (w : Word) :
    (records.foldl applyRecord g).derivedFromEdges w =
      appended (g.derivedFromEdges w) (targetsOf records "rel:is_derived_from".toList w) := by
  induction records generalizing g with
  | nil => simp [targetsOf, appended]
  | cons r rs ih =>
    rw [List.foldl_cons, ih]
    unfold targetsOf
    have hne : "rel:is_derived_from".toList ≠ "rel:etymology".toList := by decide
    by_cases h1 : r.label = "rel:is_derived_from".toList
    · have h0 : ¬ r.label = "rel:etymology".toList := by rw [h1]; exact hne
      by_cases h2 : r.source = w
      · have hf : (List.filter (fun r => decide (r.label = "rel:is_derived_from".toList ∧
            r.source = w)) (r :: rs)) = r :: List.filter (fun r =>
            decide (r.label = "rel:is_derived_from".toList ∧ r.source = w)) rs := by
          exact List.filter_cons_of_pos
            (by rw [decide_eq_true_iff]; exact ⟨h1, h2⟩)
        rw [hf, List.map_cons, ← appended_appended]
        congr 1
        unfold applyRecord
        rw [if_neg h0, if_pos h1]
        simp [mapAppend, h2]
      · have hf : (List.filter (fun r => decide (r.label = "rel:is_derived_from".toList ∧
            r.source = w)) (r :: rs)) = List.filter (fun r =>
            decide (r.label = "rel:is_derived_from".toList ∧ r.source = w)) rs := by
          exact List.filter_cons_of_neg
            (by rw [decide_eq_true_iff]; exact fun h => h2 h.2)
        rw [hf]
        congr 1
        have h3 : ¬ w = r.source := fun h => h2 h.symm
        unfold applyRecord
        rw [if_neg h0, if_pos h1]
        simp [mapAppend, h3]
    · have hf : (List.filter (fun r => decide (r.label = "rel:is_derived_from".toList ∧
          r.source = w)) (r :: rs)) = List.filter (fun r =>
          decide (r.label = "rel:is_derived_from".toList ∧ r.source = w)) rs := by
        exact List.filter_cons_of_neg
          (by rw [decide_eq_true_iff]; exact fun h => h1 h.1)
      rw [hf]
      congr 1
      unfold applyRecord
      rw [if_neg h1]
      split_ifs <;> rfl

/-- The graph `New` builds from the lines of well-formed records. -/
theorem New_renderRecords (records : List record) (h : ∀ r ∈ records, recordOk r) :
    New (records.map renderRecord) none =
      some (Except.ok (records.foldl applyRecord ⟨fun _ => none, fun _ => none⟩)) := by
  unfold New
  rw [newLoop_renderRecords _ records h]
  rfl

end etymology


namespace etymology

theorem singleton_infix_iff_mem (c : Char) (s : GoString) : [c] <:+: s ↔ c ∈ s := by
  constructor
  · intro h
    exact h.subset (List.mem_singleton_self c)
  · intro h
    obtain ⟨a, b, hab⟩ := List.append_of_mem h
    exact ⟨a, b, by rw [hab]; simp⟩

theorem goIndex_one_eq_none_iff {α : Type} (xs : List α) :
    goIndex xs 1 = none ↔ xs.length < 2 := by
  unfold goIndex
  rw [List.get?_eq_none]
  omega

/-- The loop of `New` fails on a line exactly when the line is one of those the
claim describes. -/
theorem newLine_eq_none_iff (g : Etymology) (line : GoString) :
    newLine g line = none ↔ lineFails line := by
  have htab : (strings.Split line "\t".toList).length < 2 ↔ '\t' ∉ line := by
    unfold strings.Split
    rw [strings.splitGo_length_lt_two _ _ (by decide)]
    exact not_congr (singleton_infix_iff_mem '\t' line)
  have hsep : ∀ f : GoString, goIndex (strings.Split f ": ".toList) 1 = none ↔
      ¬ ": ".toList <:+: f := by
    intro f
    rw [goIndex_one_eq_none_iff]
    unfold strings.Split
    exact strings.splitGo_length_lt_two _ _ (by decide)
  have hzero : ∀ f : GoString, ∃ x, goIndex (strings.Split f ": ".toList) 0 = some x := by
    intro f
    have hne := strings.splitGo_ne_nil ": ".toList 0 f
    unfold strings.Split
    cases hs : strings.splitGo ": ".toList 0 f with
    | nil => exact absurd hs hne
    | cons x xs => exact ⟨x, rfl⟩
  unfold newLine lineFails
  generalize strings.Split line "\t".toList = cs at htab
  match cs, htab with
  | [], htab =>
    have : '\t' ∉ line := htab.mp (by simp)
    simp [goIndex, this]
  | [c0], htab =>
    have : '\t' ∉ line := htab.mp (by simp)
    simp [goIndex, this]
  | [c0, c1], htab =>
    have : ¬ '\t' ∉ line := fun h => by
      have := htab.mpr h
      simp at this
    by_cases hl : c1 = "rel:etymology".toList ∨ c1 = "rel:is_derived_from".toList
    · simp only [goIndex, List.get?, Option.some_bind, if_pos hl, Option.none_bind,
        List.length_cons, List.length_nil, true_iff]
      right
      refine ⟨?_, Or.inl (by omega)⟩
      rcases hl with h | h
      · exact Or.inl (congrArg some h)
      · exact Or.inr (congrArg some h)
    · simp only [goIndex, List.get?, Option.some_bind, if_neg hl]
      constructor
      · intro h
        exact Option.noConfusion h
      · rintro (h | ⟨h | h, _⟩)
        · exact absurd h this
        · exact absurd (Or.inl (Option.some.inj h)) hl
        · exact absurd (Or.inr (Option.some.inj h)) hl
  | c0 :: c1 :: c2 :: rest, htab =>
    have : ¬ '\t' ∉ line := fun h => by
      have := htab.mpr h
      simp only [List.length_cons] at this
      omega
    by_cases hl : c1 = "rel:etymology".toList ∨ c1 = "rel:is_derived_from".toList
    · obtain ⟨x0, hx0⟩ := hzero c0
      obtain ⟨y0, hy0⟩ := hzero c2
      have hlab : goIndex (c0 :: c1 :: c2 :: rest) 1 = some "rel:etymology".toList ∨
          goIndex (c0 :: c1 :: c2 :: rest) 1 = some "rel:is_derived_from".toList := by
        rcases hl with h | h
        · exact Or.inl (congrArg some h)
        · exact Or.inr (congrArg some h)
      have hlen : ¬ (c0 :: c1 :: c2 :: rest).length < 3 := by
        simp only [List.length_cons]; omega
      have hright : ('\t' ∉ line ∨
          ((goIndex (c0 :: c1 :: c2 :: rest) 1 = some "rel:etymology".toList ∨
            goIndex (c0 :: c1 :: c2 :: rest) 1 = some "rel:is_derived_from".toList) ∧
          ((c0 :: c1 :: c2 :: rest).length < 3 ∨
            ¬ ": ".toList <:+: (c0 :: c1 :: c2 :: rest).getD 0 [] ∨
            ¬ ": ".toList <:+: (c0 :: c1 :: c2 :: rest).getD 2 []))) ↔
          (¬ ": ".toList <:+: c0 ∨ ¬ ": ".toList <:+: c2) := by
        constructor
        · rintro (h | ⟨_, h | h | h⟩)
          · exact absurd h this
          · exact absurd h hlen
          · exact Or.inl h
          · exact Or.inr h
        · rintro (h | h)
          · exact Or.inr ⟨hlab, Or.inr (Or.inl h)⟩
          · exact Or.inr ⟨hlab, Or.inr (Or.inr h)⟩
      rw [hright, ← hsep c0, ← hsep c2]
      have e0 : goIndex (c0 :: c1 :: c2 :: rest) 0 = some c0 := rfl
      have e1 : goIndex (c0 :: c1 :: c2 :: rest) 1 = some c1 := rfl
      have e2 : goIndex (c0 :: c1 :: c2 :: rest) 2 = some c2 := rfl
      simp only [e0, e1, e2, Option.some_bind, if_pos hl, hx0, hy0]
      cases h1 : goIndex (strings.Split c0 ": ".toList) 1 with
      | none => simp
      | some x1 =>
        cases h2 : goIndex (strings.Split c2 ": ".toList) 1 with
        | none => simp
        | some y1 =>
          simp only [Option.some_bind]
          split_ifs <;> simp
    · have e1 : goIndex (c0 :: c1 :: c2 :: rest) 1 = some c1 := rfl
      simp only [e1, Option.some_bind, if_neg hl]
      constructor
      · intro h
        exact Option.noConfusion h
      · rintro (h | ⟨h | h, _⟩)
        · exact absurd h this
        · exact absurd (Or.inl (Option.some.inj h)) hl
        · exact absurd (Or.inr (Option.some.inj h)) hl

theorem newLoop_eq_none_iff (g : Etymology) (lines : List GoString) :
    newLoop g lines = none ↔ ∃ line ∈ lines, lineFails line := by
  induction lines generalizing g with
  | nil => simp [newLoop]
  | cons line rest ih =>
    simp only [newLoop, List.mem_cons, exists_eq_or_imp]
    cases h : newLine g line with
    | none =>
      have := (newLine_eq_none_iff g line).mp h
      simp [this]
    | some g2 =>
      have hnf : ¬ lineFails line := fun hf => by
        rw [(newLine_eq_none_iff g line).mpr hf] at h
        exact Option.noConfusion h
      simp only [Option.some_bind, ih g2, hnf, false_or]

/-- Claim C20. The function `New` fails with an index out of range on a line
exactly when the line has no tab, or its label is `rel:etymology` or
`rel:is_derived_from` and it has no third tab-separated field or its first or
its third field does not contain `": "`; on a stream read to its end in which no
line is of that kind (a line with another label needs only two fields) `New`
returns a graph. In particular an empty line makes `New` fail, it is not
skipped. -/
theorem New_fails_iff (lines : List GoString) (scanErr : Option GoString) :
    (∀ g line, newLine g line = none ↔ lineFails line) ∧
    (New lines scanErr = none ↔ ∃ line ∈ lines, lineFails line) ∧
    ((∀ line ∈ lines, ¬ lineFails line) → ∃ g, New lines none = some (Except.ok g)) ∧
    lineFails [] ∧
    New ["en: dog\trel:etymology\ten: doggy".toList, [],
      "en: cat\trel:etymology\ten: kitty".toList] none = none ∧
    (∃ g, New ["en: dog\trel:etymology\ten: doggy".toList, "note\trel:comment".toList]
      none = some (Except.ok g)) := by
  refine ⟨newLine_eq_none_iff, ?_, ?_, by decide, rfl, ⟨_, rfl⟩⟩
  · unfold New
    rw [Option.map_eq_none', newLoop_eq_none_iff]
  · intro h
    cases hl : newLoop ⟨fun _ => none, fun _ => none⟩ lines with
    | none =>
      obtain ⟨line, hmem, hf⟩ := (newLoop_eq_none_iff _ lines).mp hl
      exact absurd hf (h line hmem)
    | some g => exact ⟨g, by unfold New; rw [hl]; rfl⟩

end etymology


namespace etymology

/-! ## Lookup -/

theorem lookupAll_eq_some_iff (f : Word → Option Node) (ws : List Word) (ns : List Node) :
    lookupAll f ws = some ns ↔ List.Forall₂ (fun w n => f w = some n) ws ns := by
  induction ws generalizing ns with
  | nil =>
    simp only [lookupAll, Option.some.injEq]
    constructor
    · intro h; subst h; exact List.Forall₂.nil
    · intro h; cases h; rfl
  | cons w ws ih =>
    simp only [lookupAll]
    constructor
    · intro h
      cases hw : f w with
      | none => rw [hw] at h; exact Option.noConfusion h
      | some n =>
        rw [hw, Option.some_bind] at h
        cases hrest : lookupAll f ws with
        | none => rw [hrest] at h; exact Option.noConfusion h
        | some rest =>
          rw [hrest] at h
          cases h
          exact List.Forall₂.cons hw ((ih rest).mp hrest)
    · intro h
      cases h with
      | cons hw hrest =>
        rw [hw, Option.some_bind, (ih _).mpr hrest]
        rfl

theorem Lookup_succ_eq_some_iff (e : Etymology) (d : Nat) (w : Word) (n : Node) :
    Lookup e (d + 1) w = some n ↔
      n.Word = w ∧
        List.Forall₂ (fun t c => Lookup e d t = some c)
          ((e.derivedFromEdges w).getD []) n.DerivedFrom ∧
        List.Forall₂ (fun t c => Lookup e d t = some c)
          ((e.etymologyEdges w).getD []) n.Etymology := by
  simp only [Lookup]
  constructor
  · intro h
    cases h1 : lookupAll (Lookup e d) ((e.derivedFromEdges w).getD []) with
    | none => rw [h1] at h; exact Option.noConfusion h
    | some ds =>
      rw [h1, Option.some_bind] at h
      cases h2 : lookupAll (Lookup e d) ((e.etymologyEdges w).getD []) with
      | none => rw [h2] at h; exact Option.noConfusion h
      | some es =>
        rw [h2, Option.some_bind] at h
        cases h
        exact ⟨rfl, (lookupAll_eq_some_iff _ _ _).mp h1, (lookupAll_eq_some_iff _ _ _).mp h2⟩
  · rintro ⟨hw, hd, he⟩
    cases n with
    | mk nw nd ne =>
      simp only [Node.Word, Node.DerivedFrom, Node.Etymology] at hw hd he
      rw [(lookupAll_eq_some_iff _ _ _).mpr hd, Option.some_bind,
        (lookupAll_eq_some_iff _ _ _).mpr he, Option.some_bind, hw]

/-- A deeper evaluation returns what a shallower one returned. -/
theorem Lookup_mono (e : Etymology) (d : Nat) (w : Word) (n : Node)
    (h : Lookup e d w = some n) : ∀ d2, d ≤ d2 → Lookup e d2 w = some n := by
  induction d generalizing w n with
  | zero => exact Option.noConfusion h
  | succ d ih =>
    intro d2 hd2
    obtain ⟨d3, rfl⟩ : ∃ d3, d2 = d3 + 1 := ⟨d2 - 1, by omega⟩
    rw [Lookup_succ_eq_some_iff] at h ⊢
    obtain ⟨hw, hd, he⟩ := h
    refine ⟨hw, hd.imp ?_, he.imp ?_⟩
    · intro t c htc
      exact ih t c htc d3 (by omega)
    · intro t c htc
      exact ih t c htc d3 (by omega)

theorem LookupReturns_iff (e : Etymology) (w : Word) (n : Node) :
    LookupReturns e w n ↔ ∃ d, Lookup e d w = some n := by
  constructor
  · rintro ⟨d, h⟩
    exact ⟨d, h d (Nat.le_refl _)⟩
  · rintro ⟨d, h⟩
    exact ⟨d, Lookup_mono e d w n h⟩

/-- An evaluation that returns at a word has returned, one level deeper in the
calls, at each of its targets. -/
theorem Lookup_target (e : Etymology) (d : Nat) (a b : Word) (n : Node)
    (h : Lookup e (d + 1) a = some n) (hab : edge e a b) : ∃ m, Lookup e d b = some m := by
  rw [Lookup_succ_eq_some_iff] at h
  obtain ⟨_, hd, he⟩ := h
  have key : ∀ (ts : List Word) (cs : List Node),
      List.Forall₂ (fun t c => Lookup e d t = some c) ts cs → b ∈ ts →
      ∃ m, Lookup e d b = some m := by
    intro ts cs hf
    induction hf with
    | nil => intro hb; simp at hb
    | cons hx _ ih =>
      intro hb
      rcases List.mem_cons.mp hb with rfl | hb
      · exact ⟨_, hx⟩
      · exact ih hb
  rcases hab with hb | hb
  · exact key _ _ hd hb
  · exact key _ _ he hb

theorem Lookup_transGen (e : Etymology) (a b : Word) (hab : Relation.TransGen (edge e) a b) :
    ∀ d n, Lookup e d a = some n → ∃ d2, d2 < d ∧ ∃ m, Lookup e d2 b = some m := by
  induction hab with
  | single h =>
    intro d n hd
    cases d with
    | zero => exact Option.noConfusion hd
    | succ d => exact ⟨d, Nat.lt_succ_self d, Lookup_target e d _ _ n hd h⟩
  | tail _ h ih =>
    intro d n hd
    obtain ⟨d2, hlt, m, hm⟩ := ih d n hd
    cases d2 with
    | zero => exact Option.noConfusion hm
    | succ d2 =>
      obtain ⟨m2, hm2⟩ := Lookup_target e d2 _ _ m hm h
      exact ⟨d2, by omega, m2, hm2⟩

theorem Lookup_reflTransGen (e : Etymology) (a b : Word)
    (hab : Relation.ReflTransGen (edge e) a b) :
    ∀ d n, Lookup e d a = some n → ∃ d2, d2 ≤ d ∧ ∃ m, Lookup e d2 b = some m := by
  intro d n hd
  rcases Relation.reflTransGen_iff_eq_or_transGen.mp hab with h | h
  · subst h
    exact ⟨d, Nat.le_refl _, n, hd⟩
  · obtain ⟨d2, hlt, hm⟩ := Lookup_transGen e a b h d n hd
    exact ⟨d2, Nat.le_of_lt hlt, hm⟩

theorem Lookup_none_of_cycle (e : Etymology) (v : Word)
    (h : Relation.TransGen (edge e) v v) : ∀ d, Lookup e d v = none := by
  intro d
  induction d using Nat.strong_induction_on with
  | _ d ih =>
    cases hd : Lookup e d v with
    | none => rfl
    | some n =>
      obtain ⟨d2, hlt, m, hm⟩ := Lookup_transGen e v v h d n hd
      rw [ih d2 hlt] at hm
      exact Option.noConfusion hm

/-- Claim C15. The method `Lookup` has no cycle detection and no depth limit: for
every graph and every word from which a cycle of etymology and derived-from
edges is reachable (a word that is its own target included), `Lookup` does not
terminate: every evaluation of bounded depth runs out of depth, and no node is
returned. -/
theorem Lookup_diverges_on_cycle (e : Etymology) (w : Word) (h : cycleReachable e w) :
    (∀ d, Lookup e d w = none) ∧ ¬ ∃ n, LookupReturns e w n := by
  obtain ⟨v, hreach, hcycle⟩ := h
  have hnone : ∀ d, Lookup e d w = none := by
    intro d
    cases hd : Lookup e d w with
    | none => rfl
    | some n =>
      obtain ⟨d2, _, m, hm⟩ := Lookup_reflTransGen e w v hreach d n hd
      rw [Lookup_none_of_cycle e v hcycle d2] at hm
      exact Option.noConfusion hm
  refine ⟨hnone, ?_⟩
  rintro ⟨n, d, hd⟩
  have := hd d (Nat.le_refl _)
  rw [hnone d] at this
  exact Option.noConfusion this

end etymology


namespace etymology

/-- Witness of claim C15: the graph of the single record `(en,a) -> (en,a)`, a
word that is its own target. -/
theorem Lookup_diverges_on_cycle_witness :
    New ["en: a\trel:etymology\ten: a".toList] none =
        some (Except.ok ([(⟨⟨"en".toList, "a".toList⟩, "rel:etymology".toList,
          ⟨"en".toList, "a".toList⟩⟩ : record)].foldl applyRecord
            ⟨fun _ => none, fun _ => none⟩)) ∧
      Lookup ([(⟨⟨"en".toList, "a".toList⟩, "rel:etymology".toList,
          ⟨"en".toList, "a".toList⟩⟩ : record)].foldl applyRecord
            ⟨fun _ => none, fun _ => none⟩) 7 ⟨"en".toList, "a".toList⟩ = none :=
  ⟨rfl,
    (Lookup_diverges_on_cycle _ ⟨"en".toList, "a".toList⟩
      ⟨⟨"en".toList, "a".toList⟩, Relation.ReflTransGen.refl,
        Relation.TransGen.single (Or.inr (by decide))⟩).1 7⟩

theorem descendants_finite (e : Etymology) (targets : List Word)
    (htargets : ∀ a b, edge e a b → b ∈ targets) (v : Word) : (descendants e v).Finite := by
  apply Set.Finite.subset (List.finite_toSet targets)
  intro u hu
  cases hu with
  | single h => exact htargets _ _ h
  | tail _ h => exact htargets _ _ h

theorem descendants_ssubset (e : Etymology) (w v c : Word) (hacyc : ¬ cycleReachable e w)
    (hv : Relation.ReflTransGen (edge e) w v) (hvc : edge e v c) :
    descendants e c ⊂ descendants e v := by
  constructor
  · intro u hu
    exact Relation.TransGen.head hvc hu
  · intro hsub
    have hc : c ∈ descendants e v := Relation.TransGen.single hvc
    have hcc : c ∈ descendants e c := hsub hc
    exact hacyc ⟨c, hv.tail hvc, hcc⟩

/-- The lookups of a list of words all return when each of them does. -/
theorem lookupAll_returns (e : Etymology) (ts : List Word)
    (h : ∀ t ∈ ts, ∃ n, LookupReturns e t n) :
    ∃ ns, List.Forall₂ (LookupReturns e) ts ns ∧
      ∃ depth, ∀ d, depth ≤ d → List.Forall₂ (fun t c => Lookup e d t = some c) ts ns := by
  induction ts with
  | nil => exact ⟨[], List.Forall₂.nil, 0, fun _ _ => List.Forall₂.nil⟩
  | cons t ts ih =>
    obtain ⟨n, hn⟩ := h t (List.mem_cons_self _ _)
    obtain ⟨ns, hns, depth, hdepth⟩ := ih fun t2 ht2 => h t2 (List.mem_cons_of_mem _ ht2)
    obtain ⟨d0, hd0⟩ := hn
    refine ⟨n :: ns, List.Forall₂.cons ⟨d0, hd0⟩ hns, max d0 depth, ?_⟩
    intro d hd
    exact List.Forall₂.cons (hd0 d (le_trans (le_max_left _ _) hd))
      (hdepth d (le_trans (le_max_right _ _) hd))

/-- In a graph with finitely many targets, `Lookup` returns at every word that
is reachable from a word from which no cycle is reachable. -/
theorem LookupReturns_of_acyclic (e : Etymology) (targets : List Word)
    (htargets : ∀ a b, edge e a b → b ∈ targets) (w : Word) (hacyc : ¬ cycleReachable e w) :
    ∀ k v, Relation.ReflTransGen (edge e) w v → (descendants e v).ncard ≤ k →
      ∃ n, LookupReturns e v n ∧ n.Word = v ∧
        List.Forall₂ (LookupReturns e) ((e.derivedFromEdges v).getD []) n.DerivedFrom ∧
        List.Forall₂ (LookupReturns e) ((e.etymologyEdges v).getD []) n.Etymology := by
  intro k
  induction k with
  | zero =>
    intro v hv hcard
    have hchild : ∀ c, edge e v c → False := by
      intro c hvc
      have hlt := Set.ncard_lt_ncard (descendants_ssubset e w v c hacyc hv hvc)
        (descendants_finite e targets htargets v)
      omega
    have hd : (e.derivedFromEdges v).getD [] = [] := by
      cases hl : (e.derivedFromEdges v).getD [] with
      | nil => rfl
      | cons c cs => exact absurd (Or.inl (by rw [hl]; exact List.mem_cons_self _ _)) (hchild c)
    have he : (e.etymologyEdges v).getD [] = [] := by
      cases hl : (e.etymologyEdges v).getD [] with
      | nil => rfl
      | cons c cs => exact absurd (Or.inr (by rw [hl]; exact List.mem_cons_self _ _)) (hchild c)
    refine ⟨Node.mk v [] [], ⟨1, ?_⟩, rfl, ?_, ?_⟩
    · intro d hd1
      obtain ⟨d2, rfl⟩ : ∃ d2, d = d2 + 1 := ⟨d - 1, by omega⟩
      rw [Lookup_succ_eq_some_iff, hd, he]
      exact ⟨rfl, List.Forall₂.nil, List.Forall₂.nil⟩
    · rw [hd]; exact List.Forall₂.nil
    · rw [he]; exact List.Forall₂.nil
  | succ k ih =>
    intro v hv hcard
    have hchild : ∀ c, edge e v c → ∃ n, LookupReturns e c n := by
      intro c hvc
      have hlt := Set.ncard_lt_ncard (descendants_ssubset e w v c hacyc hv hvc)
        (descendants_finite e targets htargets v)
      obtain ⟨n, hn, _⟩ := ih c (hv.tail hvc) (by omega)
      exact ⟨n, hn⟩
    obtain ⟨ds, hds, depth1, hdepth1⟩ := lookupAll_returns e ((e.derivedFromEdges v).getD [])
      fun t ht => hchild t (Or.inl ht)
    obtain ⟨es, hes, depth2, hdepth2⟩ := lookupAll_returns e ((e.etymologyEdges v).getD [])
      fun t ht => hchild t (Or.inr ht)
    refine ⟨Node.mk v ds es, ⟨max depth1 depth2 + 1, ?_⟩, rfl, hds, hes⟩
    intro d hd
    obtain ⟨d2, rfl⟩ : ∃ d2, d = d2 + 1 := ⟨d - 1, by omega⟩
    rw [Lookup_succ_eq_some_iff]
    have h1 : depth1 ≤ d2 := by
      have := le_max_left depth1 depth2
      omega
    have h2 : depth2 ≤ d2 := by
      have := le_max_right depth1 depth2
      omega
    exact ⟨rfl, hdepth1 d2 h1, hdepth2 d2 h2⟩

end etymology


namespace etymology

theorem getD_appended_none (ts : List Word) : (appended none ts).getD [] = ts := by
  unfold appended
  by_cases h : ts = []
  · simp [h]
  · simp [h]

/-- The edges of the graph built from records are the targets of the records. -/
theorem edge_foldl_iff (records : List record) (a b : Word) :
    edge (records.foldl applyRecord ⟨fun _ => none, fun _ => none⟩) a b ↔
      (b ∈ targetsOf records "rel:is_derived_from".toList a ∨
        b ∈ targetsOf records "rel:etymology".toList a) := by
  unfold edge
  rw [foldl_applyRecord_etymologyEdges, foldl_applyRecord_derivedFromEdges,
    getD_appended_none, getD_appended_none]

theorem mem_targetsOf (records : List record) (label : GoString) (a b : Word)
    (h : b ∈ targetsOf records label a) :
    ∃ r ∈ records, r.label = label ∧ r.source = a ∧ r.target = b := by
  unfold targetsOf at h
  obtain ⟨r, hr, hrb⟩ := List.mem_map.mp h
  obtain ⟨hmem, hp⟩ := List.mem_filter.mp hr
  rw [decide_eq_true_iff] at hp
  exact ⟨r, hmem, hp.1, hp.2, hrb⟩

/-- Claim C13. For every stream of well-formed record lines, `New` returns a
graph in which the etymology edges of a word are exactly the targets of the
`rel:etymology` records with that source, in stream order, and its derived-from
edges exactly the targets of the `rel:is_derived_from` records with that source,
in stream order: repeated targets and repeated derived-from sources are kept, a
record with another label changes neither map, and a word that is the source of
no record of a label is absent as a key of that map. -/
theorem New_edges (records : List record) (hwf : ∀ r ∈ records, recordOk r) :
    ∃ g, New (records.map renderRecord) none = some (Except.ok g) ∧
      (∀ w, g.etymologyEdges w =
        if targetsOf records "rel:etymology".toList w = [] then none
        else some (targetsOf records "rel:etymology".toList w)) ∧
      (∀ w, g.derivedFromEdges w =
        if targetsOf records "rel:is_derived_from".toList w = [] then none
        else some (targetsOf records "rel:is_derived_from".toList w)) := by
  refine ⟨_, New_renderRecords records hwf, ?_, ?_⟩
  · intro w
    rw [foldl_applyRecord_etymologyEdges]
    unfold appended
    split_ifs <;> simp
  · intro w
    rw [foldl_applyRecord_derivedFromEdges]
    unfold appended
    split_ifs <;> simp

/-- Witness of claim C13 on `exampleRecords`. -/
theorem New_edges_witness :
    ∃ g, New (exampleRecords.map renderRecord) none = some (Except.ok g) ∧
      g.etymologyEdges ⟨"en".toList, "dog".toList⟩ =
        some [⟨"en".toList, "doggy".toList⟩, ⟨"en".toList, "doggy".toList⟩] ∧
      g.derivedFromEdges ⟨"en".toList, "cat".toList⟩ =
        some [⟨"la".toList, "cattus".toList⟩, ⟨"fr".toList, "chat".toList⟩] ∧
      g.derivedFromEdges ⟨"en".toList, "dog".toList⟩ = none ∧
      g.etymologyEdges ⟨"en".toList, "ox".toList⟩ = none ∧
      g.derivedFromEdges ⟨"en".toList, "ox".toList⟩ = none :=
  match New_edges exampleRecords (by decide) with
  | ⟨g, hg, he, hd⟩ =>
    ⟨g, hg, by rw [he]; decide, by rw [hd]; decide, by rw [hd]; decide, by rw [he]; decide,
      by rw [hd]; decide⟩

/-- Claim C14. For every graph built by `New` from well-formed records and every
word `w` from which no cycle of edges is reachable: `Lookup(w)` returns the node
with the word `w` whose `Etymology` children are, in stream order, the nodes
`Lookup` returns for the targets of the `rel:etymology` records with source `w`,
and whose `DerivedFrom` children are likewise those of the targets of the
`rel:is_derived_from` records with source `w`; a word with no outgoing edge gives
the node with both child lists empty. -/
theorem Lookup_of_acyclic (records : List record) (g : Etymology) (w : Word)
    (hwf : ∀ r ∈ records, recordOk r)
    (hnew : New (records.map renderRecord) none = some (Except.ok g))
    (hacyc : ¬ cycleReachable g w) :
    ∃ n, LookupReturns g w n ∧ n.Word = w ∧
      List.Forall₂ (LookupReturns g) (targetsOf records "rel:etymology".toList w)
        n.Etymology ∧
      List.Forall₂ (LookupReturns g) (targetsOf records "rel:is_derived_from".toList w)
        n.DerivedFrom ∧
      (targetsOf records "rel:etymology".toList w = [] →
        targetsOf records "rel:is_derived_from".toList w = [] → n = Node.mk w [] []) := by
  rw [New_renderRecords records hwf] at hnew
  have hg : records.foldl applyRecord ⟨fun _ => none, fun _ => none⟩ = g := by
    injection hnew with h
    injection h
  subst hg
  have htargets : ∀ a b, edge (records.foldl applyRecord ⟨fun _ => none, fun _ => none⟩) a b →
      b ∈ records.map fun r => r.target := by
    intro a b hab
    rcases (edge_foldl_iff records a b).mp hab with h | h
    · obtain ⟨r, hr, _, _, hrb⟩ := mem_targetsOf records _ a b h
      exact List.mem_map.mpr ⟨r, hr, hrb⟩
    · obtain ⟨r, hr, _, _, hrb⟩ := mem_targetsOf records _ a b h
      exact List.mem_map.mpr ⟨r, hr, hrb⟩
  obtain ⟨n, hn, hword, hd, he⟩ := LookupReturns_of_acyclic _ _ htargets w hacyc _ w
    Relation.ReflTransGen.refl (Nat.le_refl _)
  rw [foldl_applyRecord_derivedFromEdges, getD_appended_none] at hd
  rw [foldl_applyRecord_etymologyEdges, getD_appended_none] at he
  refine ⟨n, hn, hword, he, hd, ?_⟩
  intro h1 h2
  rw [h1] at he
  rw [h2] at hd
  cases n with
  | mk nw nd ne =>
    simp only [Node.Word, Node.DerivedFrom, Node.Etymology] at hword hd he
    cases hd
    cases he
    rw [hword]

theorem dogRecords_acyclic :
    ¬ cycleReachable (dogRecords.foldl applyRecord ⟨fun _ => none, fun _ => none⟩)
      ⟨"en".toList, "dog".toList⟩ := by
  have hedge : ∀ a b, edge (dogRecords.foldl applyRecord ⟨fun _ => none, fun _ => none⟩) a b →
      a = ⟨"en".toList, "dog".toList⟩ ∧ b = ⟨"en".toList, "doggy".toList⟩ := by
    intro a b hab
    have key : ∀ label, b ∈ targetsOf dogRecords label a →
        a = ⟨"en".toList, "dog".toList⟩ ∧ b = ⟨"en".toList, "doggy".toList⟩ := by
      intro label h
      obtain ⟨r, hr, _, hsrc, htgt⟩ := mem_targetsOf dogRecords label a b h
      rw [dogRecords, List.mem_singleton] at hr
      subst hr
      exact ⟨hsrc.symm, htgt.symm⟩
    rcases (edge_foldl_iff dogRecords a b).mp hab with h | h
    · exact key _ h
    · exact key _ h
  rintro ⟨v, _, hcycle⟩
  obtain ⟨b, hvb, hbv⟩ := Relation.TransGen.head'_iff.mp hcycle
  obtain ⟨hv, hb⟩ := hedge v b hvb
  subst hv hb
  rcases Relation.ReflTransGen.cases_head hbv with h | ⟨c, hc, _⟩
  · exact absurd h (by decide)
  · exact absurd (hedge _ c hc).1 (by decide)

/-- Witness of claim C14, the round trip of the specification: from the single
record `(en,dog) -etymology-> (en,doggy)`, `Lookup(en,dog)` has one `Etymology`
child, the node of `(en,doggy)` with no children, and no `DerivedFrom` child. -/
theorem Lookup_of_acyclic_witness :
    New ["en: dog\trel:etymology\ten: doggy".toList] none =
        some (Except.ok (dogRecords.foldl applyRecord ⟨fun _ => none, fun _ => none⟩)) ∧
      Lookup (dogRecords.foldl applyRecord ⟨fun _ => none, fun _ => none⟩) 2
          ⟨"en".toList, "dog".toList⟩ =
        some (Node.mk ⟨"en".toList, "dog".toList⟩ []
          [Node.mk ⟨"en".toList, "doggy".toList⟩ [] []]) ∧
      ∃ n, LookupReturns (dogRecords.foldl applyRecord ⟨fun _ => none, fun _ => none⟩)
          ⟨"en".toList, "dog".toList⟩ n ∧
        n.Word = ⟨"en".toList, "dog".toList⟩ ∧
        List.Forall₂
          (LookupReturns (dogRecords.foldl applyRecord ⟨fun _ => none, fun _ => none⟩))
          (targetsOf dogRecords "rel:etymology".toList ⟨"en".toList, "dog".toList⟩)
          n.Etymology :=
  ⟨rfl, rfl,
    match Lookup_of_acyclic dogRecords _ ⟨"en".toList, "dog".toList⟩ (by decide)
      (New_renderRecords dogRecords (by decide)) dogRecords_acyclic with
    | ⟨n, hn, hw, he, _, _⟩ => ⟨n, hn, hw, he⟩⟩

end etymology
